import Mathlib

/-!
# Translation-manager MCP server: a shallow embedding

This file embeds the core of the translation-manager MCP server
(`index.js` together with `src/utils/non-breaking-spaces.js`) in Lean 4
and proves properties of it.

Modelling conventions:

* JavaScript strings are modelled as `List Char` (`JStr`).  This keeps the
  string operations the code uses (`split`, `startsWith`, `endsWith`,
  concatenation, `replace` with a string pattern) purely structural.
  `localeCompare` and the default `Array.prototype.sort` comparator are
  modelled by code-point lexicographic comparison; the proofs below only
  rely on a sort being a permutation (plus sortedness for the locale list,
  where all elements are pairwise distinct), so the exact collation does
  not matter.
* JSON values are the inductive `Json`; JavaScript numbers are modelled as
  `Int` (they only occur as opaque leaf values here, except for their
  falsiness, which `Int` captures for `0`).
* The filesystem is modelled by a write log (`WriteEvent`) plus a failure
  oracle `fail : JStr → Bool` saying which file writes throw; a thrown
  JavaScript exception is an `Except.error`.
* `Array.prototype.sort(cmp)` is modelled by a stable insertion sort with
  the boolean ordering derived from the comparator.
-/

/-- JavaScript strings, modelled as lists of characters. -/
abbrev JStr := List Char

/-- Shorthand for writing `JStr` literals. -/
def js (s : String) : JStr := s.toList

/-- `s.split(c)` for a single-character separator `c`: JS `String.prototype.split`
with a one-character string pattern.  `"".split(c) = [""]`, and separators at the
ends produce empty fragments, as in JS. -/
def splitOnChar (c : Char) : JStr → List JStr
  | [] => [[]]
  | x :: xs =>
    match splitOnChar c xs with
    | [] => [[]]
    | g :: gs => if x = c then [] :: g :: gs else (x :: g) :: gs

/-- Join a list of fragments with a single-character separator (inverse
direction of `splitOnChar`, used to reason about dotted keys). -/
def joinSep (c : Char) : List JStr → JStr
  | [] => []
  | [p] => p
  | p :: ps => p ++ c :: joinSep c ps

/-- Code-point "less than" on strings (lexicographic). -/
def strLtB : JStr → JStr → Bool
  | [], [] => false
  | [], _ :: _ => true
  | _ :: _, [] => false
  | a :: as, b :: bs => if a = b then strLtB as bs else decide (a < b)

/-- Code-point "less or equal" on strings; models both `localeCompare ≤ 0`
and the default JS sort comparator (code-unit order; all the strings the
code sorts are within the BMP, where code-unit and code-point order agree). -/
def strLeB (a b : JStr) : Bool := !strLtB b a

/-- Stable insertion of an element into a sorted list. -/
def sortInsert (le : α → α → Bool) (x : α) : List α → List α
  | [] => [x]
  | y :: ys => if le x y then x :: y :: ys else y :: sortInsert le x ys

/-- Stable insertion sort.  Models `Array.prototype.sort(cmp)` for a
consistent comparator: the JS engine's sort is some comparator-consistent
stable sort, and every proof below uses only that the result is a
permutation (plus sortedness where needed). -/
def sortBy (le : α → α → Bool) : List α → List α
  | [] => []
  | x :: xs => sortInsert le x (sortBy le xs)

/-- JS `s.replace(pat, '')` for a plain-string pattern: deletes the first
occurrence of `pat` (used by `filename.replace('.json', '')`). -/
def deleteFirstOcc (pat : JStr) : JStr → JStr
  | [] => []
  | c :: cs =>
    if pat.isPrefixOf (c :: cs) then (c :: cs).drop pat.length
    else c :: deleteFirstOcc pat cs

/-- JSON values.  `obj` fields are an ordered association list, mirroring JS
object key insertion order. -/
inductive Json where
  | null : Json
  | bool : Bool → Json
  | num : Int → Json
  | str : JStr → Json
  | arr : List Json → Json
  | obj : List (JStr × Json) → Json
deriving Inhabited

/-- Association-list lookup (first matching key), i.e. reading a JS object
property / `Map.get`. -/
def alGet (l : List (JStr × α)) (k : JStr) : Option α :=
  match l with
  | [] => none
  | (k', v) :: rest => if k' = k then some v else alGet rest k

/-- Association-list update: overwrite the first binding of `k`, or append a
new binding, i.e. writing a JS object property / `Map.set` (existing keys keep
their position, new keys go last). -/
def alSet (l : List (JStr × α)) (k : JStr) (v : α) : List (JStr × α) :=
  match l with
  | [] => [(k, v)]
  | (k', v') :: rest => if k' = k then (k, v) :: rest else (k', v') :: alSet rest k v

mutual

/-- `flattenJson(data, parentKey)` from `index.js`: descends nested plain
objects (not `null`, not arrays), joining keys with `'.'`; everything else
is emitted as a leaf.  `parentKey ? parentKey + '.' + key : key` is the
JS truthiness test on the accumulated string. -/
def flattenJson : Json → JStr → List (JStr × Json)
  | .obj fields, parentKey => flattenFields fields parentKey
  | _, _ => []

/-- The `if (typeof value === 'object' && value !== null && !Array.isArray(value))`
branch of `flattenJson`'s loop body, applied to one entry's value under its
already-joined key. -/
def flattenEntry (newKey : JStr) : Json → List (JStr × Json)
  | .obj fields2 => flattenFields fields2 newKey
  | v => [(newKey, v)]

/-- The `for (const [key, value] of Object.entries(data))` loop of
`flattenJson`. -/
def flattenFields : List (JStr × Json) → JStr → List (JStr × Json)
  | [], _ => []
  | (key, value) :: rest, parentKey =>
    flattenEntry (if parentKey = [] then key else parentKey ++ '.' :: key) value ++
      flattenFields rest parentKey

end

/-- JS falsiness of a JSON value (`undefined` is represented separately by
`Option.none` at use sites; `NaN` does not arise in this model). -/
def jsFalsy : Json → Bool
  | .null => true
  | .bool b => !b
  | .num n => n = 0
  | .str s => s.isEmpty
  | _ => false

/-- One `current[key] = …` walk of `unflattenJson`: follow `keys`, creating
`{}` at a segment whose current value is absent or falsy (`if (!current[key])
current[key] = {}`), descending into objects.  If a *truthy non-object* sits
at an intermediate segment, strict-mode JS throws a `TypeError` on the
property assignment (for an array it would instead create non-JSON named
properties); both are modelled as `none`. -/
def setPath : Json → List JStr → Json → Option Json
  | .obj fields, [k], v => some (.obj (alSet fields k v))
  | .obj fields, k :: k' :: ks, v =>
    let child :=
      match alGet fields k with
      | none => Json.obj []
      | some c => if jsFalsy c then Json.obj [] else c
    (match child with
     | .obj cf => (setPath (.obj cf) (k' :: ks) v).map fun c' => Json.obj (alSet fields k c')
     | _ => none)
  | _, _, _ => none

/-- Depth of a dotted key: `key.split('.').length`. -/
def keyDepth (k : JStr) : Nat := (splitOnChar '.' k).length

/-- The comparator of `unflattenJson`'s sort: ascending depth, then
`localeCompare` (modelled as code-point order), as a boolean `≤`. -/
def unflattenLe (a b : JStr × Json) : Bool :=
  if keyDepth a.1 = keyDepth b.1 then strLeB a.1 b.1 else decide (keyDepth a.1 < keyDepth b.1)

/-- `unflattenJson(flatData)` from `index.js`: sort by depth then key, then
materialise each dotted path into a nested object.  `none` models the
strict-mode `TypeError` described at `setPath`. -/
def unflattenJson (flatData : List (JStr × Json)) : Option Json :=
  let sortedData := sortBy unflattenLe flatData
  sortedData.foldl
    (fun acc p => acc.bind fun t => setPath t (splitOnChar '.' p.1) p.2)
    (some (Json.obj []))

/-- Scalar (non-container) equality used by `jeqv`. -/
def scalarEq : Json → Json → Bool
  | .null, .null => true
  | .bool a, .bool b => a = b
  | .num a, .num b => a = b
  | .str a, .str b => a = b
  | _, _ => false

mutual

/-- Structural equality of JSON trees, insensitive to object key order
(deep-equality in the sense of "structurally equal, object identity not
required"): objects are equal when they have the same number of keys and
each binding of the left one matches a binding of the right one. -/
def jeqv : Json → Json → Bool
  | .arr a, .arr b => jeqvList a b
  | .obj a, .obj b => a.length = b.length && jeqvFields a b
  | x, y => scalarEq x y

/-- Pointwise `jeqv` on array elements. -/
def jeqvList : List Json → List Json → Bool
  | [], [] => true
  | x :: xs, y :: ys => jeqv x y && jeqvList xs ys
  | _, _ => false

/-- Every left binding matches the right object's binding for the same key. -/
def jeqvFields : List (JStr × Json) → List (JStr × Json) → Bool
  | [], _ => true
  | (k, v) :: rest, b =>
    (match alGet b k with
     | some w => jeqv v w
     | none => false) && jeqvFields rest b

end

mutual

/-- The leaf paths of a JSON tree: the same traversal as `flattenJson`, but
keeping each key path as a list of segments instead of a dotted string. -/
def pathsOf : Json → List (List JStr × Json)
  | .obj fields => pathsFields fields
  | _ => []

/-- Paths contributed by one field `(key, value)`. -/
def entryPaths (key : JStr) : Json → List (List JStr × Json)
  | .obj fields2 => (pathsFields fields2).map fun q => (key :: q.1, q.2)
  | v => [([key], v)]

/-- Paths contributed by an object's field list. -/
def pathsFields : List (JStr × Json) → List (List JStr × Json)
  | [] => []
  | (key, value) :: rest => entryPaths key value ++ pathsFields rest

end

/-- Keys of an association list. -/
def alKeys (l : List (JStr × α)) : List JStr := l.map (·.1)

/-- A scalar JSON value (not an array, not an object). -/
def scalarB : Json → Bool
  | .null => true
  | .bool _ => true
  | .num _ => true
  | .str _ => true
  | _ => false

/-- A leaf admissible in a good tree: a scalar, or an array of scalars — the
leaf model the spec itself adopts for the codec
(`{String, Number, Bool, Null, ArrayOfScalars}`). -/
def leafOk : Json → Bool
  | .arr elems => elems.all scalarB
  | .obj _ => false
  | v => scalarB v

mutual

/-- Tree well-formedness that makes the flatten/unflatten round trip hold:
every key is non-empty and dot-free, keys are distinct within each object
(as they are in a parsed JS object), and no nested object is empty. -/
def goodTree : Json → Bool
  | .obj fields => goodFields fields
  | _ => false

/-- Value part of `goodTree`: a nested object must be non-empty and good;
a leaf must be a scalar or an array of scalars. -/
def goodVal : Json → Bool
  | .obj fields2 => !fields2.isEmpty && goodFields fields2
  | v => leafOk v

/-- Field-list part of `goodTree`. -/
def goodFields : List (JStr × Json) → Bool
  | [] => true
  | (key, value) :: rest =>
    !key.isEmpty && !key.contains '.' && goodVal value &&
    rest.all (fun f => f.1 ≠ key) && goodFields rest

end

mutual

/-- Well-formedness of the trees `unflattenJson` builds: keys distinct within
each object and no nested object empty (weaker than `goodTree`: key contents
are unconstrained). -/
def accTree : Json → Bool
  | .obj fields => accFields fields
  | _ => false

/-- Value part of `accTree`. -/
def accVal : Json → Bool
  | .obj fields2 => !fields2.isEmpty && accFields fields2
  | _ => true

/-- Field-list part of `accTree`. -/
def accFields : List (JStr × Json) → Bool
  | [] => true
  | (key, value) :: rest =>
    accVal value && rest.all (fun f => f.1 ≠ key) && accFields rest

end

/-- Is this value a JS object (in the `flattenJson` sense)? -/
def isObj : Json → Bool
  | .obj _ => true
  | _ => false

/-! ## Basic lemmas about the string model and the sort -/

theorem splitOnChar_ne_nil (c : Char) (s : JStr) : splitOnChar c s ≠ [] := by
  cases s with
  | nil => simp [splitOnChar]
  | cons x xs =>
    simp only [splitOnChar]
    rcases h : splitOnChar c xs with _ | ⟨g, gs⟩
    · simp
    · by_cases hx : x = c <;> simp [hx]

theorem splitOnChar_no_sep (c : Char) (s : JStr) (h : c ∉ s) :
    splitOnChar c s = [s] := by
  induction s with
  | nil => rfl
  | cons x xs ih =>
    have hx : x ≠ c := fun e => h (e ▸ List.mem_cons_self x xs)
    have hxs : c ∉ xs := fun m => h (List.mem_cons_of_mem x m)
    simp only [splitOnChar, ih hxs]
    simp [hx]

theorem splitOnChar_append_cons (c : Char) (p t : JStr) (h : c ∉ p) :
    splitOnChar c (p ++ c :: t) = p :: splitOnChar c t := by
  induction p with
  | nil =>
    simp only [List.nil_append, splitOnChar]
    rcases ht : splitOnChar c t with _ | ⟨g, gs⟩
    · exact absurd ht (splitOnChar_ne_nil c t)
    · simp
  | cons x xs ih =>
    have hx : x ≠ c := fun e => h (e ▸ List.mem_cons_self x xs)
    have hxs : c ∉ xs := fun m => h (List.mem_cons_of_mem x m)
    simp only [List.cons_append, splitOnChar, List.append_eq]
    rw [ih hxs]
    simp [hx]

theorem splitOnChar_joinSep (c : Char) (parts : List JStr) (hne : parts ≠ [])
    (hfree : ∀ p ∈ parts, c ∉ p) :
    splitOnChar c (joinSep c parts) = parts := by
  induction parts with
  | nil => exact absurd rfl hne
  | cons p ps ih =>
    cases ps with
    | nil =>
      exact splitOnChar_no_sep c p (hfree p (List.mem_cons_self p []))
    | cons q qs =>
      have hjoin : joinSep c (p :: q :: qs) = p ++ c :: joinSep c (q :: qs) := rfl
      rw [hjoin, splitOnChar_append_cons c p _ (hfree p (List.mem_cons_self p _)),
        ih (by simp) (fun r hr => hfree r (List.mem_cons_of_mem p hr))]

theorem joinSep_append_single (c : Char) (ps : List JStr) (q : JStr) :
    joinSep c (ps ++ [q]) = if ps = [] then q else joinSep c ps ++ c :: q := by
  induction ps with
  | nil => rfl
  | cons p ps ih =>
    cases ps with
    | nil => rfl
    | cons r rs =>
      show p ++ c :: joinSep c ((r :: rs) ++ [q]) = (p ++ c :: joinSep c (r :: rs)) ++ c :: q
      rw [ih]
      simp

theorem joinSep_eq_nil_iff (c : Char) (ps : List JStr) (h : ∀ p ∈ ps, p ≠ []) :
    joinSep c ps = [] ↔ ps = [] := by
  cases ps with
  | nil => simp [joinSep]
  | cons p qs =>
    cases qs with
    | nil =>
      simpa [joinSep] using h p (List.mem_cons_self p [])
    | cons r rs =>
      show p ++ c :: joinSep c (r :: rs) = [] ↔ p :: r :: rs = []
      simp

theorem sortInsert_perm (le : α → α → Bool) (x : α) (l : List α) :
    (sortInsert le x l).Perm (x :: l) := by
  induction l with
  | nil => exact List.Perm.refl _
  | cons y ys ih =>
    simp only [sortInsert]
    by_cases h : le x y = true
    · simp [h]
    · simp only [h]
      exact (ih.cons y).trans (List.Perm.swap x y ys)

theorem sortBy_perm (le : α → α → Bool) (l : List α) :
    (sortBy le l).Perm l := by
  induction l with
  | nil => exact List.Perm.refl _
  | cons x xs ih =>
    exact (sortInsert_perm le x (sortBy le xs)).trans (ih.cons x)

/-! ## Association-list lemmas -/

theorem alKeys_nil : alKeys ([] : List (JStr × α)) = [] := rfl

theorem alKeys_cons (k : JStr) (v : α) (rest : List (JStr × α)) :
    alKeys ((k, v) :: rest) = k :: alKeys rest := rfl

theorem alKeys_append (l1 l2 : List (JStr × α)) :
    alKeys (l1 ++ l2) = alKeys l1 ++ alKeys l2 := List.map_append _ _ _

theorem mem_alKeys (l : List (JStr × α)) (k : JStr) :
    k ∈ alKeys l ↔ ∃ v, (k, v) ∈ l := by
  simp only [alKeys, List.mem_map]
  constructor
  · rintro ⟨⟨k', v⟩, hm, rfl⟩
    exact ⟨v, hm⟩
  · rintro ⟨v, hm⟩
    exact ⟨(k, v), hm, rfl⟩

theorem alGet_alSet_self (l : List (JStr × α)) (k : JStr) (v : α) :
    alGet (alSet l k v) k = some v := by
  induction l with
  | nil => simp [alGet, alSet]
  | cons p rest ih =>
    obtain ⟨k', v'⟩ := p
    by_cases h : k' = k
    · simp [alGet, alSet, h]
    · simp [alGet, alSet, h, ih]

theorem alGet_alSet_ne (l : List (JStr × α)) (k k' : JStr) (v : α) (h : k' ≠ k) :
    alGet (alSet l k v) k' = alGet l k' := by
  have h' : ¬ (k = k') := fun e => h e.symm
  induction l with
  | nil => simp [alGet, alSet, h']
  | cons p rest ih =>
    obtain ⟨k0, v0⟩ := p
    by_cases h0 : k0 = k
    · subst h0
      simp [alGet, alSet, h']
    · simp [alGet, alSet, h0, ih]

theorem alGet_eq_none (l : List (JStr × α)) (k : JStr) :
    alGet l k = none ↔ k ∉ alKeys l := by
  induction l with
  | nil => simp [alGet, alKeys_nil]
  | cons p rest ih =>
    obtain ⟨k', v'⟩ := p
    by_cases h : k' = k
    · simp [alGet, alKeys_cons, h]
    · simp [alGet, alKeys_cons, h, ih, Ne.symm h]

theorem alSet_append_of_not_mem (l : List (JStr × α)) (k : JStr) (v : α)
    (h : k ∉ alKeys l) : alSet l k v = l ++ [(k, v)] := by
  induction l with
  | nil => rfl
  | cons p rest ih =>
    obtain ⟨k', v'⟩ := p
    rw [alKeys_cons, List.mem_cons] at h
    push_neg at h
    have hk : k' ≠ k := fun e => h.1 e.symm
    simp [alSet, hk, ih h.2]

theorem alGet_split (l : List (JStr × α)) (k : JStr) (c : α)
    (h : alGet l k = some c) :
    ∃ l1 l2, l = l1 ++ (k, c) :: l2 ∧ k ∉ alKeys l1 := by
  induction l with
  | nil => simp [alGet] at h
  | cons p rest ih =>
    obtain ⟨k', v'⟩ := p
    by_cases hk : k' = k
    · subst hk
      rw [alGet, if_pos rfl, Option.some_inj] at h
      subst h
      exact ⟨[], rest, rfl, by simp [alKeys_nil]⟩
    · rw [alGet, if_neg hk] at h
      obtain ⟨l1, l2, he, hnm⟩ := ih h
      refine ⟨(k', v') :: l1, l2, by rw [he]; rfl, ?_⟩
      rw [alKeys_cons, List.mem_cons]
      push_neg
      exact ⟨fun e => hk e.symm, hnm⟩

theorem alSet_of_split (l1 l2 : List (JStr × α)) (k : JStr) (c v : α)
    (h : k ∉ alKeys l1) :
    alSet (l1 ++ (k, c) :: l2) k v = l1 ++ (k, v) :: l2 := by
  induction l1 with
  | nil => simp [alSet]
  | cons p rest ih =>
    obtain ⟨k', v'⟩ := p
    rw [alKeys_cons, List.mem_cons] at h
    push_neg at h
    have hk : k' ≠ k := fun e => h.1 e.symm
    simp [alSet, hk, ih h.2]

theorem alGet_of_mem_nodup (l : List (JStr × α)) (k : JStr) (v : α)
    (hd : (alKeys l).Nodup) (h : (k, v) ∈ l) : alGet l k = some v := by
  induction l with
  | nil => cases h
  | cons p rest ih =>
    obtain ⟨k', v'⟩ := p
    rw [alKeys_cons, List.nodup_cons] at hd
    rcases List.mem_cons.mp h with he | hm
    · cases he
      simp [alGet]
    · have hk : k' ≠ k := by
        intro e
        subst e
        exact hd.1 ((mem_alKeys rest k').mpr ⟨v, hm⟩)
      simp [alGet, hk, ih hd.2 hm]

/-! ## Paths of a tree -/

/-- Two leaf paths are "apart" when neither is a prefix of the other
(this also forces them to differ). -/
def PathsApart (a b : List JStr × Json) : Prop :=
  ¬ a.1.IsPrefix b.1 ∧ ¬ b.1.IsPrefix a.1

theorem pathsApart_symm {a b : List JStr × Json} (h : PathsApart a b) : PathsApart b a :=
  ⟨h.2, h.1⟩

theorem pathsFields_append (l1 l2 : List (JStr × Json)) :
    pathsFields (l1 ++ l2) = pathsFields l1 ++ pathsFields l2 := by
  induction l1 with
  | nil => rfl
  | cons p rest ih =>
    obtain ⟨k, v⟩ := p
    simp [pathsFields, ih]

theorem entryPaths_leaf (k : JStr) (v : Json) (h : isObj v = false) :
    entryPaths k v = [([k], v)] := by
  cases v <;> first | rfl | cases h

theorem entryPaths_head (k : JStr) (v : Json) :
    ∀ q ∈ entryPaths k v, ∃ p, q.1 = k :: p := by
  intro q hq
  cases v
  case obj f2 =>
    simp only [entryPaths, List.mem_map] at hq
    obtain ⟨r, -, rfl⟩ := hq
    exact ⟨r.1, rfl⟩
  all_goals
    simp only [entryPaths, List.mem_singleton] at hq
    subst hq
    exact ⟨[], rfl⟩

theorem pathsFields_head_mem (l : List (JStr × Json)) :
    ∀ q ∈ pathsFields l, ∃ k p, q.1 = k :: p ∧ k ∈ alKeys l := by
  induction l with
  | nil => intro q hq; cases hq
  | cons f rest ih =>
    obtain ⟨k, v⟩ := f
    intro q hq
    rw [pathsFields, List.mem_append] at hq
    rcases hq with hq | hq
    · obtain ⟨p, hp⟩ := entryPaths_head k v q hq
      exact ⟨k, p, hp, by simp [alKeys_cons]⟩
    · obtain ⟨k', p, hp, hm⟩ := ih q hq
      exact ⟨k', p, hp, by simp [alKeys_cons, hm]⟩

theorem pathsFields_path_ne_nil (l : List (JStr × Json)) :
    ∀ q ∈ pathsFields l, q.1 ≠ [] := by
  intro q hq
  obtain ⟨k, p, hp, _⟩ := pathsFields_head_mem l q hq
  rw [hp]
  exact List.cons_ne_nil k p

theorem entryPaths_mem_of_get (l : List (JStr × Json)) (k : JStr) (c : Json)
    (h : alGet l k = some c) : ∀ q ∈ entryPaths k c, q ∈ pathsFields l := by
  obtain ⟨l1, l2, rfl, -⟩ := alGet_split l k c h
  intro q hq
  rw [pathsFields_append, pathsFields]
  simp only [List.mem_append]
  exact Or.inr (Or.inl hq)

theorem pathsFields_ne_nil (l : List (JStr × Json)) (hacc : accFields l = true)
    (hne : l ≠ []) : pathsFields l ≠ [] := by
  match l with
  | (k, Json.obj f2) :: rest =>
    rw [pathsFields]
    intro hcat
    rcases List.append_eq_nil.mp hcat with ⟨h1, -⟩
    have hv : accVal (.obj f2) = true := by
      rw [accFields, Bool.and_eq_true, Bool.and_eq_true] at hacc
      exact hacc.1.1
    rw [accVal, Bool.and_eq_true] at hv
    have hf2 : f2 ≠ [] := by
      intro e
      rw [e] at hv
      simp at hv
    have := pathsFields_ne_nil f2 hv.2 hf2
    rw [entryPaths] at h1
    exact this (List.map_eq_nil_iff.mp h1)
  | (k, Json.null) :: rest =>
    rw [pathsFields]
    intro hcat
    rcases List.append_eq_nil.mp hcat with ⟨h1, -⟩
    simp [entryPaths] at h1
  | (k, Json.bool b) :: rest =>
    rw [pathsFields]
    intro hcat
    rcases List.append_eq_nil.mp hcat with ⟨h1, -⟩
    simp [entryPaths] at h1
  | (k, Json.num n) :: rest =>
    rw [pathsFields]
    intro hcat
    rcases List.append_eq_nil.mp hcat with ⟨h1, -⟩
    simp [entryPaths] at h1
  | (k, Json.str s) :: rest =>
    rw [pathsFields]
    intro hcat
    rcases List.append_eq_nil.mp hcat with ⟨h1, -⟩
    simp [entryPaths] at h1
  | (k, Json.arr a) :: rest =>
    rw [pathsFields]
    intro hcat
    rcases List.append_eq_nil.mp hcat with ⟨h1, -⟩
    simp [entryPaths] at h1
termination_by sizeOf l
decreasing_by
  simp_wf
  omega

theorem goodFields_cons_elim {k : JStr} {v : Json} {rest : List (JStr × Json)}
    (h : goodFields ((k, v) :: rest) = true) :
    k ≠ [] ∧ k.contains '.' = false ∧ goodVal v = true ∧
      (∀ f ∈ rest, f.1 ≠ k) ∧ goodFields rest = true := by
  rw [goodFields] at h
  simp only [Bool.and_eq_true, Bool.not_eq_true', List.all_eq_true,
    decide_eq_true_eq] at h
  obtain ⟨⟨⟨⟨h1, h2⟩, h3⟩, h4⟩, h5⟩ := h
  refine ⟨?_, h2, h3, h4, h5⟩
  intro e
  rw [e] at h1
  simp at h1

theorem accFields_cons_elim {k : JStr} {v : Json} {rest : List (JStr × Json)}
    (h : accFields ((k, v) :: rest) = true) :
    accVal v = true ∧ (∀ f ∈ rest, f.1 ≠ k) ∧ accFields rest = true := by
  rw [accFields] at h
  simp only [Bool.and_eq_true, List.all_eq_true, decide_eq_true_eq] at h
  exact ⟨h.1.1, h.1.2, h.2⟩

theorem accFields_cons_intro {k : JStr} {v : Json} {rest : List (JStr × Json)}
    (h1 : accVal v = true) (h2 : ∀ f ∈ rest, f.1 ≠ k) (h3 : accFields rest = true) :
    accFields ((k, v) :: rest) = true := by
  rw [accFields]
  simp only [Bool.and_eq_true, List.all_eq_true, decide_eq_true_eq]
  exact ⟨⟨h1, h2⟩, h3⟩

theorem accVal_obj_elim {f2 : List (JStr × Json)} (h : accVal (.obj f2) = true) :
    f2 ≠ [] ∧ accFields f2 = true := by
  rw [accVal] at h
  simp only [Bool.and_eq_true, Bool.not_eq_true'] at h
  exact ⟨by simpa [List.isEmpty_iff] using h.1, h.2⟩

theorem accVal_of_not_obj {v : Json} (h : isObj v = false) : accVal v = true := by
  cases v <;> first | rfl | cases h

mutual

theorem goodVal_accVal (v : Json) (h : goodVal v = true) : accVal v = true := by
  match v with
  | Json.obj f2 =>
    rw [goodVal] at h
    rw [accVal]
    simp only [Bool.and_eq_true] at h ⊢
    exact ⟨h.1, goodFields_accFields f2 h.2⟩
  | Json.null => rfl
  | Json.bool b => rfl
  | Json.num n => rfl
  | Json.str s => rfl
  | Json.arr a => rfl
termination_by sizeOf v
decreasing_by
  all_goals first
    | (simp_wf; omega)
    | simp_wf

theorem goodFields_accFields (l : List (JStr × Json)) (h : goodFields l = true) :
    accFields l = true := by
  match l with
  | [] => rfl
  | (k, v) :: rest =>
    obtain ⟨-, -, hv, hne, hrest⟩ := goodFields_cons_elim h
    exact accFields_cons_intro (goodVal_accVal v hv) hne (goodFields_accFields rest hrest)
termination_by sizeOf l
decreasing_by
  all_goals first
    | (simp_wf; omega)
    | simp_wf

end

theorem pathsApart_of_head_ne {a b : List JStr × Json} {k k' : JStr} {p p' : List JStr}
    (ha : a.1 = k :: p) (hb : b.1 = k' :: p') (h : k ≠ k') : PathsApart a b := by
  constructor
  · rw [ha, hb, List.cons_prefix_cons]
    rintro ⟨rfl, -⟩
    exact h rfl
  · rw [ha, hb, List.cons_prefix_cons]
    rintro ⟨rfl, -⟩
    exact h rfl

theorem pathsFields_values_nonobj (l : List (JStr × Json)) :
    ∀ q ∈ pathsFields l, isObj q.2 = false := by
  match l with
  | [] => intro q hq; cases hq
  | (k, Json.obj f2) :: rest =>
    intro q hq
    rw [pathsFields, List.mem_append] at hq
    rcases hq with hq | hq
    · rw [entryPaths, List.mem_map] at hq
      obtain ⟨r, hr, rfl⟩ := hq
      exact pathsFields_values_nonobj f2 r hr
    · exact pathsFields_values_nonobj rest q hq
  | (k, Json.null) :: rest =>
    intro q hq
    rw [pathsFields, List.mem_append] at hq
    rcases hq with hq | hq
    · rw [entryPaths_leaf k Json.null rfl, List.mem_singleton] at hq
      subst hq
      rfl
    · exact pathsFields_values_nonobj rest q hq
  | (k, Json.bool b) :: rest =>
    intro q hq
    rw [pathsFields, List.mem_append] at hq
    rcases hq with hq | hq
    · rw [entryPaths_leaf k (Json.bool b) rfl, List.mem_singleton] at hq
      subst hq
      rfl
    · exact pathsFields_values_nonobj rest q hq
  | (k, Json.num n) :: rest =>
    intro q hq
    rw [pathsFields, List.mem_append] at hq
    rcases hq with hq | hq
    · rw [entryPaths_leaf k (Json.num n) rfl, List.mem_singleton] at hq
      subst hq
      rfl
    · exact pathsFields_values_nonobj rest q hq
  | (k, Json.str s) :: rest =>
    intro q hq
    rw [pathsFields, List.mem_append] at hq
    rcases hq with hq | hq
    · rw [entryPaths_leaf k (Json.str s) rfl, List.mem_singleton] at hq
      subst hq
      rfl
    · exact pathsFields_values_nonobj rest q hq
  | (k, Json.arr a) :: rest =>
    intro q hq
    rw [pathsFields, List.mem_append] at hq
    rcases hq with hq | hq
    · rw [entryPaths_leaf k (Json.arr a) rfl, List.mem_singleton] at hq
      subst hq
      rfl
    · exact pathsFields_values_nonobj rest q hq
termination_by sizeOf l
decreasing_by
  all_goals first
    | (simp_wf; omega)
    | simp_wf

theorem leaf_entry_segments {k : JStr} {v : Json} {q : List JStr × Json}
    (hk : k ≠ []) (hdot : k.contains '.' = false)
    (hq : q ∈ [(([k] : List JStr), v)]) :
    ∀ s ∈ q.1, s ≠ [] ∧ s.contains '.' = false := by
  rw [List.mem_singleton] at hq
  subst hq
  intro s hs
  rcases List.mem_cons.mp hs with rfl | hs
  · exact ⟨hk, hdot⟩
  · cases hs

theorem pathsFields_segments (l : List (JStr × Json)) (h : goodFields l = true) :
    ∀ q ∈ pathsFields l, ∀ s ∈ q.1, s ≠ [] ∧ s.contains '.' = false := by
  match l with
  | [] => intro q hq; cases hq
  | (k, Json.obj f2) :: rest =>
    obtain ⟨hk, hdot, hval, -, hrest⟩ := goodFields_cons_elim h
    intro q hq
    rw [pathsFields, List.mem_append] at hq
    rcases hq with hq | hq
    · rw [entryPaths, List.mem_map] at hq
      obtain ⟨r, hr, rfl⟩ := hq
      intro s hs
      rcases List.mem_cons.mp hs with rfl | hs
      · exact ⟨hk, hdot⟩
      · rw [goodVal, Bool.and_eq_true] at hval
        exact pathsFields_segments f2 hval.2 r hr s hs
    · exact pathsFields_segments rest hrest q hq
  | (k, Json.null) :: rest =>
    obtain ⟨hk, hdot, -, -, hrest⟩ := goodFields_cons_elim h
    intro q hq
    rw [pathsFields, List.mem_append] at hq
    rcases hq with hq | hq
    · exact leaf_entry_segments hk hdot (by rwa [entryPaths_leaf k Json.null rfl] at hq)
    · exact pathsFields_segments rest hrest q hq
  | (k, Json.bool b) :: rest =>
    obtain ⟨hk, hdot, -, -, hrest⟩ := goodFields_cons_elim h
    intro q hq
    rw [pathsFields, List.mem_append] at hq
    rcases hq with hq | hq
    · exact leaf_entry_segments hk hdot (by rwa [entryPaths_leaf k (Json.bool b) rfl] at hq)
    · exact pathsFields_segments rest hrest q hq
  | (k, Json.num n) :: rest =>
    obtain ⟨hk, hdot, -, -, hrest⟩ := goodFields_cons_elim h
    intro q hq
    rw [pathsFields, List.mem_append] at hq
    rcases hq with hq | hq
    · exact leaf_entry_segments hk hdot (by rwa [entryPaths_leaf k (Json.num n) rfl] at hq)
    · exact pathsFields_segments rest hrest q hq
  | (k, Json.str s0) :: rest =>
    obtain ⟨hk, hdot, -, -, hrest⟩ := goodFields_cons_elim h
    intro q hq
    rw [pathsFields, List.mem_append] at hq
    rcases hq with hq | hq
    · exact leaf_entry_segments hk hdot (by rwa [entryPaths_leaf k (Json.str s0) rfl] at hq)
    · exact pathsFields_segments rest hrest q hq
  | (k, Json.arr a) :: rest =>
    obtain ⟨hk, hdot, -, -, hrest⟩ := goodFields_cons_elim h
    intro q hq
    rw [pathsFields, List.mem_append] at hq
    rcases hq with hq | hq
    · exact leaf_entry_segments hk hdot (by rwa [entryPaths_leaf k (Json.arr a) rfl] at hq)
    · exact pathsFields_segments rest hrest q hq
termination_by sizeOf l
decreasing_by
  all_goals first
    | (simp_wf; omega)
    | simp_wf

theorem pathsApart_cons {k : JStr} {a b : List JStr × Json} (h : PathsApart a b) :
    PathsApart (k :: a.1, a.2) (k :: b.1, b.2) := by
  constructor
  · intro hp
    exact h.1 (List.cons_prefix_cons.mp hp).2
  · intro hp
    exact h.2 (List.cons_prefix_cons.mp hp).2

theorem pathsFields_pairwise (l : List (JStr × Json)) (h : goodFields l = true) :
    List.Pairwise PathsApart (pathsFields l) := by
  match l with
  | [] => exact List.Pairwise.nil
  | (k, v) :: rest =>
    obtain ⟨-, -, hval, hne, hrest⟩ := goodFields_cons_elim h
    rw [pathsFields, List.pairwise_append]
    refine ⟨?_, pathsFields_pairwise rest hrest, ?_⟩
    · match v, hval with
      | Json.obj f2, hval =>
        rw [goodVal, Bool.and_eq_true] at hval
        rw [entryPaths, List.pairwise_map]
        exact (pathsFields_pairwise f2 hval.2).imp pathsApart_cons
      | Json.null, _ => exact List.pairwise_singleton _ _
      | Json.bool b, _ => exact List.pairwise_singleton _ _
      | Json.num n, _ => exact List.pairwise_singleton _ _
      | Json.str s, _ => exact List.pairwise_singleton _ _
      | Json.arr a, _ => exact List.pairwise_singleton _ _
    · intro a ha b hb
      obtain ⟨p, hp⟩ := entryPaths_head k v a ha
      obtain ⟨k', p', hp', hk'⟩ := pathsFields_head_mem rest b hb
      refine pathsApart_of_head_ne hp hp' ?_
      intro e
      obtain ⟨w, hw⟩ := (mem_alKeys rest k').mp hk'
      exact hne (k', w) hw e.symm
termination_by sizeOf l
decreasing_by
  all_goals first
    | (simp_wf; omega)
    | simp_wf

/-! ## `flattenJson` computes the dotted-joined leaf paths -/

theorem flattenFields_eq_paths (l : List (JStr × Json)) (h : goodFields l = true)
    (pre : List JStr) (hpre : ∀ s ∈ pre, s ≠ []) :
    flattenFields l (joinSep '.' pre) =
      (pathsFields l).map fun q => (joinSep '.' (pre ++ q.1), q.2) := by
  match l with
  | [] => rfl
  | (key, value) :: rest =>
    obtain ⟨hk, -, hval, -, hrest⟩ := goodFields_cons_elim h
    have hnew : (if joinSep '.' pre = [] then key else joinSep '.' pre ++ '.' :: key)
        = joinSep '.' (pre ++ [key]) := by
      rw [joinSep_append_single]
      by_cases hp : pre = []
      · subst hp
        simp [joinSep]
      · rw [if_neg hp, if_neg (fun e => hp (((joinSep_eq_nil_iff '.' pre hpre).mp e)))]
    have hpre' : ∀ s ∈ pre ++ [key], s ≠ [] := by
      intro s hs
      rcases List.mem_append.mp hs with hs | hs
      · exact hpre s hs
      · rw [List.mem_singleton] at hs
        subst hs
        exact hk
    show flattenEntry _ value ++ flattenFields rest (joinSep '.' pre) = _
    rw [hnew, pathsFields, List.map_append,
      flattenFields_eq_paths rest hrest pre hpre]
    congr 1
    match value, hval with
    | Json.obj f2, hval =>
      rw [goodVal, Bool.and_eq_true] at hval
      show flattenFields f2 (joinSep '.' (pre ++ [key])) = _
      rw [flattenFields_eq_paths f2 hval.2 (pre ++ [key]) hpre', entryPaths,
        List.map_map]
      refine List.map_congr_left ?_
      intro q _
      simp [Function.comp, List.append_assoc]
    | Json.null, _ => rfl
    | Json.bool b, _ => rfl
    | Json.num n, _ => rfl
    | Json.str s, _ => rfl
    | Json.arr a, _ => rfl
termination_by sizeOf l
decreasing_by
  all_goals first
    | (simp_wf; omega)
    | simp_wf

theorem flattenJson_eq_paths (t : Json) (h : goodTree t = true) :
    flattenJson t [] = (pathsOf t).map fun q => (joinSep '.' q.1, q.2) := by
  match t, h with
  | Json.obj fields, h =>
    have : flattenFields fields (joinSep '.' []) =
        (pathsFields fields).map fun q => (joinSep '.' ([] ++ q.1), q.2) :=
      flattenFields_eq_paths fields h [] (by intro s hs; cases hs)
    simpa [joinSep] using this

/-! ## The insertion step of `unflattenJson` -/

theorem pathsFields_nil : pathsFields ([] : List (JStr × Json)) = [] := rfl

theorem pathsFields_cons (k : JStr) (v : Json) (rest : List (JStr × Json)) :
    pathsFields ((k, v) :: rest) = entryPaths k v ++ pathsFields rest := rfl

theorem accFields_append_single (l : List (JStr × Json)) (k : JStr) (v : Json)
    (hacc : accFields l = true) (hk : k ∉ alKeys l) (hv : accVal v = true) :
    accFields (l ++ [(k, v)]) = true := by
  induction l with
  | nil => exact accFields_cons_intro hv (by intro f hf; cases hf) rfl
  | cons p rest ih =>
    obtain ⟨k0, v0⟩ := p
    obtain ⟨h1, h2, h3⟩ := accFields_cons_elim hacc
    rw [alKeys_cons, List.mem_cons] at hk
    push_neg at hk
    refine accFields_cons_intro h1 ?_ (ih h3 hk.2)
    intro f hf
    rcases List.mem_append.mp hf with hf | hf
    · exact h2 f hf
    · rw [List.mem_singleton] at hf
      subst hf
      exact hk.1

theorem accFields_mid_elim (l1 l2 : List (JStr × Json)) (k : JStr) (c : Json)
    (hacc : accFields (l1 ++ (k, c) :: l2) = true) :
    accVal c = true ∧ k ∉ alKeys l2 := by
  induction l1 with
  | nil =>
    obtain ⟨h1, h2, -⟩ := accFields_cons_elim hacc
    refine ⟨h1, ?_⟩
    intro hm
    obtain ⟨w, hw⟩ := (mem_alKeys l2 k).mp hm
    exact h2 (k, w) hw rfl
  | cons p rest ih =>
    obtain ⟨k0, v0⟩ := p
    obtain ⟨-, -, h3⟩ := accFields_cons_elim hacc
    exact ih h3

theorem accFields_replace (l1 l2 : List (JStr × Json)) (k : JStr) (c c' : Json)
    (hacc : accFields (l1 ++ (k, c) :: l2) = true) (hv : accVal c' = true) :
    accFields (l1 ++ (k, c') :: l2) = true := by
  induction l1 with
  | nil =>
    obtain ⟨-, h2, h3⟩ := accFields_cons_elim hacc
    exact accFields_cons_intro hv h2 h3
  | cons p rest ih =>
    obtain ⟨k0, v0⟩ := p
    obtain ⟨h1, h2, h3⟩ := accFields_cons_elim hacc
    refine accFields_cons_intro h1 ?_ (ih h3)
    intro f hf
    rcases List.mem_append.mp hf with hf | hf
    · exact h2 f (List.mem_append.mpr (Or.inl hf))
    · rcases List.mem_cons.mp hf with rfl | hf
      · exact h2 (k, c) (List.mem_append.mpr (Or.inr (List.mem_cons_self _ _)))
      · exact h2 f (List.mem_append.mpr (Or.inr (List.mem_cons_of_mem _ hf)))

theorem accFields_get_accVal (l : List (JStr × Json)) (k : JStr) (c : Json)
    (hacc : accFields l = true) (h : alGet l k = some c) : accVal c = true := by
  obtain ⟨l1, l2, rfl, -⟩ := alGet_split l k c h
  exact (accFields_mid_elim l1 l2 k c hacc).1

theorem setPath_isObj (u : Json) (ks : List JStr) (v u' : Json)
    (h : setPath u ks v = some u') : ∃ g, u' = Json.obj g := by
  match u, ks with
  | Json.obj fields, [k] =>
    rw [setPath, Option.some_inj] at h
    exact ⟨_, h.symm⟩
  | Json.obj fields, k :: k2 :: ks' =>
    rw [setPath] at h
    rcases hc : (match alGet fields k with
      | none => Json.obj []
      | some c => if jsFalsy c then Json.obj [] else c) with _ | b | n | s | a | cf <;>
      rw [hc] at h
    case obj =>
      rw [show (match Json.obj cf with
        | Json.obj cf => (setPath (Json.obj cf) (k2 :: ks') v).map
            fun c' => Json.obj (alSet fields k c')
        | _ => none)
          = (setPath (Json.obj cf) (k2 :: ks') v).map
              (fun c' => Json.obj (alSet fields k c')) from rfl,
        Option.map_eq_some'] at h
      obtain ⟨c', -, hc'⟩ := h
      exact ⟨_, hc'.symm⟩
    all_goals cases h
  | Json.obj fields, [] => simp [setPath] at h
  | Json.null, ks => simp [setPath] at h
  | Json.bool b, ks => simp [setPath] at h
  | Json.num n, ks => simp [setPath] at h
  | Json.str s, ks => simp [setPath] at h
  | Json.arr a, ks => simp [setPath] at h

theorem jsFalsy_obj (f : List (JStr × Json)) : jsFalsy (Json.obj f) = false := rfl

theorem leaf_binding_path (fields : List (JStr × Json)) (k : JStr) (c : Json)
    (hget : alGet fields k = some c) (hc : isObj c = false) :
    ([k], c) ∈ pathsFields fields := by
  have := entryPaths_mem_of_get fields k c hget
  rw [entryPaths_leaf k c hc] at this
  exact this ([k], c) (List.mem_singleton.mpr rfl)

theorem obj_binding_path (fields : List (JStr × Json)) (k : JStr)
    (cf : List (JStr × Json)) (hacc : accFields fields = true)
    (hget : alGet fields k = some (Json.obj cf)) :
    ∃ r ∈ pathsFields cf, ((k :: r.1, r.2) : List JStr × Json) ∈ pathsFields fields := by
  have hval := accFields_get_accVal fields k _ hacc hget
  obtain ⟨hcf, hacc2⟩ := accVal_obj_elim hval
  obtain ⟨r, hr⟩ := List.exists_mem_of_ne_nil _ (pathsFields_ne_nil cf hacc2 hcf)
  refine ⟨r, hr, ?_⟩
  have := entryPaths_mem_of_get fields k _ hget
  rw [entryPaths] at this
  exact this _ (List.mem_map.mpr ⟨r, hr, rfl⟩)

theorem setPath_insert (ks : List JStr) (u v : Json) (hne : ks ≠ [])
    (hacc : accTree u = true) (hv : isObj v = false)
    (hap : ∀ q ∈ pathsOf u, ¬ ks.IsPrefix q.1 ∧ ¬ q.1.IsPrefix ks) :
    ∃ u', setPath u ks v = some u' ∧ accTree u' = true ∧
      (pathsOf u').Perm ((ks, v) :: pathsOf u) := by
  have hobj : ∃ fields, u = Json.obj fields := by
    cases u <;> first | (exact ⟨_, rfl⟩) | (simp [accTree] at hacc)
  obtain ⟨fields, rfl⟩ := hobj
  rw [accTree] at hacc
  have hpaths : pathsOf (Json.obj fields) = pathsFields fields := rfl
  match hks : ks, hne with
  | [k], _ =>
    have hknot : alGet fields k = none := by
      rcases hg : alGet fields k with _ | c
      · rfl
      · exfalso
        rcases hco : isObj c with _ | _
        · have hmem := leaf_binding_path fields k c hg hco
          exact (hap _ (hpaths ▸ hmem)).2 (List.prefix_refl [k])
        · match c, hco with
          | Json.obj cf, _ =>
            obtain ⟨r, -, hmem⟩ := obj_binding_path fields k cf hacc hg
            exact (hap _ (hpaths ▸ hmem)).1
              (List.cons_prefix_cons.mpr ⟨rfl, List.nil_prefix⟩)
    have hknot' : k ∉ alKeys fields := (alGet_eq_none fields k).mp hknot
    refine ⟨Json.obj (alSet fields k v), rfl, ?_, ?_⟩
    · rw [accTree, alSet_append_of_not_mem fields k v hknot']
      exact accFields_append_single fields k v hacc hknot' (accVal_of_not_obj hv)
    · rw [hpaths, alSet_append_of_not_mem fields k v hknot']
      show (pathsFields (fields ++ [(k, v)])).Perm _
      rw [pathsFields_append, pathsFields_cons, entryPaths_leaf k v hv, pathsFields_nil,
        List.append_nil]
      exact List.perm_append_comm
  | k :: k2 :: ks', _ =>
    have hnotleaf : ∀ c, alGet fields k = some c → isObj c = true := by
      intro c hg
      rcases hco : isObj c with _ | _
      · exfalso
        have hmem := leaf_binding_path fields k c hg hco
        exact (hap _ (hpaths ▸ hmem)).2
          (List.cons_prefix_cons.mpr ⟨rfl, List.nil_prefix⟩)
      · rfl
    rcases hg : alGet fields k with _ | c
    · -- no binding at `k`: a fresh `{}` is created and filled
      have hstep : setPath (Json.obj fields) (k :: k2 :: ks') v =
          (setPath (Json.obj []) (k2 :: ks') v).map
            fun c' => Json.obj (alSet fields k c') := by
        rw [setPath, hg]
      obtain ⟨c', hc', hacc', hperm'⟩ :=
        setPath_insert (k2 :: ks') (Json.obj []) v (List.cons_ne_nil _ _) rfl hv
          (by intro q hq; cases hq)
      obtain ⟨g, rfl⟩ := setPath_isObj _ _ _ _ hc'
      have hgpaths : pathsOf (Json.obj g) = pathsFields g := rfl
      have hgne : pathsFields g ≠ [] := by
        intro e
        have := hperm'.length_eq
        rw [hgpaths, e] at this
        simp at this
      have hgne' : g ≠ [] := by
        intro e
        subst e
        exact hgne rfl
      have haccg : accVal (Json.obj g) = true := by
        rw [accVal, Bool.and_eq_true]
        exact ⟨by simp [List.isEmpty_iff, hgne'], hacc'⟩
      have hknot' : k ∉ alKeys fields := (alGet_eq_none fields k).mp hg
      refine ⟨Json.obj (alSet fields k (Json.obj g)), ?_, ?_, ?_⟩
      · rw [hstep, hc', Option.map_some']
      · rw [accTree, alSet_append_of_not_mem fields k _ hknot']
        exact accFields_append_single fields k _ hacc hknot' haccg
      · rw [hpaths, alSet_append_of_not_mem fields k _ hknot']
        show (pathsFields (fields ++ [(k, Json.obj g)])).Perm _
        rw [pathsFields_append, pathsFields_cons, pathsFields_nil, List.append_nil,
          entryPaths]
        have hent : ((pathsFields g).map fun q => ((k :: q.1, q.2) : List JStr × Json)).Perm
            [(k :: k2 :: ks', v)] := by
          have h2 := hperm'.map fun q => ((k :: q.1, q.2) : List JStr × Json)
          rw [hgpaths] at h2
          simpa only [pathsOf, pathsFields_nil, List.map_nil, List.map_cons] using h2
        exact (hent.append_left (pathsFields fields)).trans List.perm_append_comm
    · -- existing binding: must be an object, descend into it
      have hcobj := hnotleaf c hg
      match c, hcobj with
      | Json.obj cf, _ =>
        have hval := accFields_get_accVal fields k _ hacc hg
        obtain ⟨hcfne, hacccf⟩ := accVal_obj_elim hval
        have hstep : setPath (Json.obj fields) (k :: k2 :: ks') v =
            (setPath (Json.obj cf) (k2 :: ks') v).map
              fun c' => Json.obj (alSet fields k c') := by
          rw [setPath, hg]
          rfl
        have hmemcf : ∀ r ∈ pathsFields cf,
            ((k :: r.1, r.2) : List JStr × Json) ∈ pathsFields fields := by
          intro r hr
          have := entryPaths_mem_of_get fields k _ hg
          rw [entryPaths] at this
          exact this _ (List.mem_map.mpr ⟨r, hr, rfl⟩)
        obtain ⟨c', hc', hacc', hperm'⟩ :=
          setPath_insert (k2 :: ks') (Json.obj cf) v (List.cons_ne_nil _ _)
            (by rw [accTree]; exact hacccf) hv
            (by
              intro r hr
              have hq := hap _ (hpaths ▸ hmemcf r hr)
              constructor
              · intro hp
                exact hq.1 (List.cons_prefix_cons.mpr ⟨rfl, hp⟩)
              · intro hp
                exact hq.2 (List.cons_prefix_cons.mpr ⟨rfl, hp⟩))
        obtain ⟨g, rfl⟩ := setPath_isObj _ _ _ _ hc'
        have hgpaths : pathsOf (Json.obj g) = pathsFields g := rfl
        have haccg : accVal (Json.obj g) = true := by
          have hgne : pathsFields g ≠ [] := by
            intro e
            have := hperm'.length_eq
            rw [hgpaths, e] at this
            simp at this
          have hgne' : g ≠ [] := by
            intro e
            subst e
            exact hgne rfl
          rw [accVal, Bool.and_eq_true]
          exact ⟨by simp [List.isEmpty_iff, hgne'], hacc'⟩
        obtain ⟨l1, l2, hfe, hk1⟩ := alGet_split fields k _ hg
        have hset : alSet fields k (Json.obj g) = l1 ++ (k, Json.obj g) :: l2 := by
          rw [hfe]
          exact alSet_of_split l1 l2 k _ _ hk1
        refine ⟨Json.obj (alSet fields k (Json.obj g)), ?_, ?_, ?_⟩
        · rw [hstep, hc', Option.map_some']
        · rw [accTree, hset]
          exact accFields_replace l1 l2 k _ _ (hfe ▸ hacc) haccg
        · rw [hpaths, hset, hfe]
          show (pathsFields (l1 ++ (k, Json.obj g) :: l2)).Perm
            ((k :: k2 :: ks', v) :: pathsFields (l1 ++ (k, Json.obj cf) :: l2))
          rw [pathsFields_append, pathsFields_cons, pathsFields_append, pathsFields_cons,
            entryPaths, entryPaths]
          have hent : ((pathsFields g).map fun q => ((k :: q.1, q.2) : List JStr × Json)).Perm
              ((k :: k2 :: ks', v) ::
                (pathsFields cf).map fun q => ((k :: q.1, q.2) : List JStr × Json)) := by
            have h2 := hperm'.map fun q => ((k :: q.1, q.2) : List JStr × Json)
            rw [hgpaths] at h2
            simpa only [pathsOf, List.map_cons] using h2
          refine (((hent.append_right (pathsFields l2)).append_left (pathsFields l1))).trans ?_
          exact List.perm_middle
termination_by ks.length
decreasing_by
  all_goals simp_wf
  all_goals subst_vars
  all_goals (simp only [List.length_cons]; try omega)

/-- Path-level view of `unflattenJson`'s fold (proof-side definition). -/
def insertAll (l : List (List JStr × Json)) (u : Json) : Option Json :=
  l.foldl (fun acc q => acc.bind fun t => setPath t q.1 q.2) (some u)

theorem insertAll_insert (L : List (List JStr × Json)) (u : Json)
    (hacc : accTree u = true)
    (helem : ∀ q ∈ L, q.1 ≠ [] ∧ isObj q.2 = false)
    (hpw : List.Pairwise PathsApart (L ++ pathsOf u)) :
    ∃ u', insertAll L u = some u' ∧ accTree u' = true ∧
      (pathsOf u').Perm (L ++ pathsOf u) := by
  induction L generalizing u with
  | nil => exact ⟨u, rfl, hacc, List.Perm.refl _⟩
  | cons q L' ih =>
    have hpw0 : List.Pairwise PathsApart (q :: (L' ++ pathsOf u)) := hpw
    rw [List.pairwise_cons] at hpw0
    obtain ⟨hq1, hpwrest⟩ := hpw0
    have hap : ∀ r ∈ pathsOf u, ¬ q.1.IsPrefix r.1 ∧ ¬ r.1.IsPrefix q.1 := by
      intro r hr
      exact hq1 r (List.mem_append.mpr (Or.inr hr))
    obtain ⟨hqne, hqobj⟩ := helem q (List.mem_cons_self _ _)
    obtain ⟨u1, hu1, hacc1, hperm1⟩ := setPath_insert q.1 u q.2 hqne hacc hqobj hap
    have hperm1' : (pathsOf u1).Perm (q :: pathsOf u) := hperm1
    have hmid : (L' ++ q :: pathsOf u).Perm (q :: (L' ++ pathsOf u)) := List.perm_middle
    have hpw1 : List.Pairwise PathsApart (L' ++ pathsOf u1) := by
      refine (List.Perm.pairwise_iff (fun h => pathsApart_symm h)
        (hperm1'.append_left L')).mpr ?_
      exact (List.Perm.pairwise_iff (fun h => pathsApart_symm h) hmid).mpr hpw
    obtain ⟨u', hins, hacc', hperm'⟩ := ih u1 hacc1
      (fun r hr => helem r (List.mem_cons_of_mem q hr)) hpw1
    refine ⟨u', ?_, hacc', ?_⟩
    · show (L'.foldl (fun acc r => acc.bind fun t => setPath t r.1 r.2)
        ((some u).bind fun t => setPath t q.1 q.2)) = some u'
      rw [Option.some_bind, hu1]
      exact hins
    · exact hperm'.trans ((hperm1'.append_left L').trans hmid)

/-! ## Trees with the same leaf paths are structurally equal -/

/-- Strip the leading key `k` from a path, dropping paths that do not start
with it (used to project the paths of one subtree out of a path multiset). -/
def underKey (k : JStr) : List JStr × Json → Option (List JStr × Json)
  | (k' :: p, w) => if k' = k then some (p, w) else none
  | ([], _) => none

theorem entryPaths_underKey_obj (k : JStr) (f2 : List (JStr × Json)) :
    (entryPaths k (.obj f2)).filterMap (underKey k) = pathsFields f2 := by
  rw [entryPaths, List.filterMap_map]
  have : (underKey k ∘ fun q : List JStr × Json => (k :: q.1, q.2)) = some := by
    funext q
    simp [underKey, Function.comp]
  rw [this, List.filterMap_some]

theorem entryPaths_underKey_leaf (k : JStr) (v : Json) (hv : isObj v = false) :
    (entryPaths k v).filterMap (underKey k) = [([], v)] := by
  rw [entryPaths_leaf k v hv]
  simp [underKey, List.filterMap]

theorem entryPaths_underKey_ne (k k' : JStr) (v : Json) (h : k' ≠ k) :
    (entryPaths k' v).filterMap (underKey k) = [] := by
  rw [List.filterMap_eq_nil_iff]
  intro q hq
  obtain ⟨p, hp⟩ := entryPaths_head k' v q hq
  obtain ⟨q1, q2⟩ := q
  simp only at hp
  subst hp
  simp [underKey, h]

theorem pathsFields_underKey_nil (l : List (JStr × Json)) (k : JStr)
    (h : k ∉ alKeys l) : (pathsFields l).filterMap (underKey k) = [] := by
  induction l with
  | nil => rfl
  | cons p rest ih =>
    obtain ⟨k', v⟩ := p
    rw [alKeys_cons, List.mem_cons] at h
    push_neg at h
    rw [pathsFields_cons, List.filterMap_append,
      entryPaths_underKey_ne k k' v (fun e => h.1 e.symm), ih h.2, List.append_nil]

theorem pathsFields_underKey_get (fields : List (JStr × Json)) (k : JStr) (c : Json)
    (hacc : accFields fields = true) (hget : alGet fields k = some c) :
    (pathsFields fields).filterMap (underKey k) =
      (entryPaths k c).filterMap (underKey k) := by
  obtain ⟨l1, l2, rfl, hk1⟩ := alGet_split fields k c hget
  have hk2 : k ∉ alKeys l2 := (accFields_mid_elim l1 l2 k c hacc).2
  rw [pathsFields_append, pathsFields_cons, List.filterMap_append, List.filterMap_append,
    pathsFields_underKey_nil l1 k hk1, pathsFields_underKey_nil l2 k hk2,
    List.nil_append, List.append_nil]

theorem accFields_keys_nodup (l : List (JStr × Json)) (hacc : accFields l = true) :
    (alKeys l).Nodup := by
  induction l with
  | nil => exact List.nodup_nil
  | cons p rest ih =>
    obtain ⟨k, v⟩ := p
    obtain ⟨-, h2, h3⟩ := accFields_cons_elim hacc
    rw [alKeys_cons, List.nodup_cons]
    refine ⟨?_, ih h3⟩
    intro hm
    obtain ⟨w, hw⟩ := (mem_alKeys rest k).mp hm
    exact h2 (k, w) hw rfl

theorem mem_keys_iff_underKey (fields : List (JStr × Json)) (k : JStr)
    (hacc : accFields fields = true) :
    k ∈ alKeys fields ↔ (pathsFields fields).filterMap (underKey k) ≠ [] := by
  constructor
  · intro hm
    obtain ⟨v, hv⟩ := (mem_alKeys fields k).mp hm
    have hget := alGet_of_mem_nodup fields k v (accFields_keys_nodup fields hacc) hv
    rw [pathsFields_underKey_get fields k v hacc hget]
    rcases ho : isObj v with _ | _
    · rw [entryPaths_underKey_leaf k v ho]
      simp
    · match v, ho with
      | Json.obj f2, _ =>
        rw [entryPaths_underKey_obj]
        obtain ⟨hf2, hacc2⟩ := accVal_obj_elim (accFields_get_accVal fields k _ hacc hget)
        exact pathsFields_ne_nil f2 hacc2 hf2
  · intro hne
    by_contra hm
    exact hne (pathsFields_underKey_nil fields k hm)

theorem jeqv_scalar_refl (v : Json) (h : scalarB v = true) : jeqv v v = true := by
  cases v <;> simp_all [jeqv, scalarEq, scalarB]

theorem jeqv_refl_leafOk (v : Json) (h : leafOk v = true) : jeqv v v = true := by
  match v with
  | Json.arr elems =>
    rw [leafOk, List.all_eq_true] at h
    rw [jeqv]
    induction elems with
    | nil => rfl
    | cons x xs ih =>
      rw [jeqvList, Bool.and_eq_true]
      exact ⟨jeqv_scalar_refl x (h x (List.mem_cons_self _ _)),
        ih fun y hy => h y (List.mem_cons_of_mem x hy)⟩
  | Json.null => rfl
  | Json.bool b => exact jeqv_scalar_refl _ (by rfl)
  | Json.num n => exact jeqv_scalar_refl _ (by rfl)
  | Json.str s => exact jeqv_scalar_refl _ (by rfl)
  | Json.obj f => rw [leafOk] at h; cases h

theorem pathsFields_values_leafOk (l : List (JStr × Json)) (h : goodFields l = true) :
    ∀ q ∈ pathsFields l, leafOk q.2 = true := by
  match l with
  | [] => intro q hq; cases hq
  | (k, v) :: rest =>
    obtain ⟨-, -, hval, -, hrest⟩ := goodFields_cons_elim h
    intro q hq
    rw [pathsFields_cons, List.mem_append] at hq
    rcases hq with hq | hq
    · match v, hval with
      | Json.obj f2, hval =>
        rw [goodVal, Bool.and_eq_true] at hval
        rw [entryPaths, List.mem_map] at hq
        obtain ⟨r, hr, rfl⟩ := hq
        exact pathsFields_values_leafOk f2 hval.2 r hr
      | Json.null, hval =>
        rw [entryPaths_leaf k Json.null rfl, List.mem_singleton] at hq
        subst hq
        exact hval
      | Json.bool b, hval =>
        rw [entryPaths_leaf k (Json.bool b) rfl, List.mem_singleton] at hq
        subst hq
        exact hval
      | Json.num n, hval =>
        rw [entryPaths_leaf k (Json.num n) rfl, List.mem_singleton] at hq
        subst hq
        exact hval
      | Json.str s, hval =>
        rw [entryPaths_leaf k (Json.str s) rfl, List.mem_singleton] at hq
        subst hq
        exact hval
      | Json.arr a, hval =>
        rw [entryPaths_leaf k (Json.arr a) rfl, List.mem_singleton] at hq
        subst hq
        exact hval
    · exact pathsFields_values_leafOk rest hrest q hq
termination_by sizeOf l
decreasing_by
  all_goals first
    | (simp_wf; omega)
    | simp_wf

theorem jeqvFields_intro (a b : List (JStr × Json))
    (h : ∀ p ∈ a, ∃ w, alGet b p.1 = some w ∧ jeqv p.2 w = true) :
    jeqvFields a b = true := by
  induction a with
  | nil => rfl
  | cons p rest ih =>
    obtain ⟨k, v⟩ := p
    obtain ⟨w, hw, hj⟩ := h (k, v) (List.mem_cons_self _ _)
    rw [jeqvFields, Bool.and_eq_true, hw]
    exact ⟨hj, ih fun r hr => h r (List.mem_cons_of_mem _ hr)⟩

theorem paths_inj (n : Nat) (u t : Json) (hsz : sizeOf u ≤ n)
    (haccu : accTree u = true) (hacct : accTree t = true)
    (hleaf : ∀ q ∈ pathsOf u, leafOk q.2 = true)
    (hperm : (pathsOf u).Perm (pathsOf t)) : jeqv u t = true := by
  induction n generalizing u t with
  | zero => exact absurd hsz (by cases u <;> simp)
  | succ n ih =>
    have hobju : ∃ fu, u = Json.obj fu := by
      cases u <;> first | (exact ⟨_, rfl⟩) | (simp [accTree] at haccu)
    obtain ⟨fu, rfl⟩ := hobju
    have hobjt : ∃ ft, t = Json.obj ft := by
      cases t <;> first | (exact ⟨_, rfl⟩) | (simp [accTree] at hacct)
    obtain ⟨ft, rfl⟩ := hobjt
    rw [accTree] at haccu hacct
    have hpu : pathsOf (Json.obj fu) = pathsFields fu := rfl
    have hpt : pathsOf (Json.obj ft) = pathsFields ft := rfl
    rw [hpu, hpt] at hperm
    have hkeys : ∀ k, k ∈ alKeys fu ↔ k ∈ alKeys ft := by
      intro k
      rw [mem_keys_iff_underKey fu k haccu, mem_keys_iff_underKey ft k hacct]
      have hfm := hperm.filterMap (underKey k)
      constructor
      · intro hne he
        rw [he] at hfm
        exact hne (List.perm_nil.mp hfm)
      · intro hne he
        rw [he] at hfm
        exact hne (List.perm_nil.mp hfm.symm)
    have hlen : fu.length = ft.length := by
      have h1 : (alKeys fu).Perm (alKeys ft) :=
        (List.perm_ext_iff_of_nodup (accFields_keys_nodup fu haccu)
          (accFields_keys_nodup ft hacct)).mpr hkeys
      simpa [alKeys] using h1.length_eq
    have hent : ∀ p ∈ fu, ∃ w, alGet ft p.1 = some w ∧ jeqv p.2 w = true := by
      rintro ⟨k, v⟩ hm
      have hgetu : alGet fu k = some v :=
        alGet_of_mem_nodup fu k v (accFields_keys_nodup fu haccu) hm
      have hkt : k ∈ alKeys ft := (hkeys k).mp ((mem_alKeys fu k).mpr ⟨v, hm⟩)
      have hne : alGet ft k ≠ none := fun e => ((alGet_eq_none ft k).mp e) hkt
      obtain ⟨w, hw⟩ := Option.ne_none_iff_exists'.mp hne
      refine ⟨w, hw, ?_⟩
      have hsub := hperm.filterMap (underKey k)
      rw [pathsFields_underKey_get fu k v haccu hgetu,
        pathsFields_underKey_get ft k w hacct hw] at hsub
      rcases hov : isObj v with _ | _
      · rw [entryPaths_underKey_leaf k v hov] at hsub
        rcases how : isObj w with _ | _
        · rw [entryPaths_underKey_leaf k w how] at hsub
          have hvw : (([] : List JStr), v) = ([], w) :=
            List.singleton_perm_singleton.mp hsub
          have hv : v = w := congrArg Prod.snd hvw
          rw [← hv]
          refine jeqv_refl_leafOk v (hleaf ([k], v) ?_)
          rw [hpu]
          exact leaf_binding_path fu k v hgetu hov
        · exfalso
          match w, how with
          | Json.obj g2, _ =>
            rw [entryPaths_underKey_obj] at hsub
            have hmem : (([] : List JStr), v) ∈ pathsFields g2 :=
              hsub.mem_iff.mp (List.mem_singleton.mpr rfl)
            exact pathsFields_path_ne_nil g2 _ hmem rfl
      · match v, hov with
        | Json.obj f2, _ =>
          rw [entryPaths_underKey_obj] at hsub
          rcases how : isObj w with _ | _
          · exfalso
            rw [entryPaths_underKey_leaf k w how] at hsub
            have hmem : (([] : List JStr), w) ∈ pathsFields f2 :=
              hsub.mem_iff.mpr (List.mem_singleton.mpr rfl)
            exact pathsFields_path_ne_nil f2 _ hmem rfl
          · match w, how with
            | Json.obj g2, _ =>
              have haccf2 := accVal_obj_elim (accFields_get_accVal fu k _ haccu hgetu)
              have haccg2 := accVal_obj_elim (accFields_get_accVal ft k _ hacct hw)
              have h1 := List.sizeOf_lt_of_mem hm
              have hsz2 : sizeOf (Json.obj f2) ≤ n := by
                simp only [Json.obj.sizeOf_spec, Prod.mk.sizeOf_spec] at h1 hsz ⊢
                omega
              have hleaf2 : ∀ q ∈ pathsOf (Json.obj f2), leafOk q.2 = true := by
                intro q hq
                have hmem2 : ((k :: q.1, q.2) : List JStr × Json) ∈ pathsFields fu := by
                  have he := entryPaths_mem_of_get fu k _ hgetu
                  rw [entryPaths] at he
                  exact he _ (List.mem_map.mpr ⟨q, hq, rfl⟩)
                exact hleaf (k :: q.1, q.2) (by rw [hpu]; exact hmem2)
              rw [entryPaths_underKey_obj] at hsub
              exact ih (Json.obj f2) (Json.obj g2) hsz2
                (by rw [accTree]; exact haccf2.2)
                (by rw [accTree]; exact haccg2.2) hleaf2 hsub
    rw [jeqv, Bool.and_eq_true]
    exact ⟨by simp [hlen], jeqvFields_intro fu ft hent⟩

theorem unflattenJson_eq_insertAll (F : List (JStr × Json)) :
    unflattenJson F =
      insertAll ((sortBy unflattenLe F).map fun p => (splitOnChar '.' p.1, p.2))
        (Json.obj []) := by
  rw [unflattenJson, insertAll, List.foldl_map]

/-- The flatten/unflatten round trip for good trees: `unflattenJson` applied
to `flattenJson t ''` succeeds and returns a tree structurally equal to `t`. -/
theorem goodTree_roundTrip (t : Json) (h : goodTree t = true) :
    ∃ u, unflattenJson (flattenJson t []) = some u ∧ jeqv u t = true := by
  have hobj : ∃ fields, t = Json.obj fields := by
    cases t <;> first | (exact ⟨_, rfl⟩) | (simp [goodTree] at h)
  obtain ⟨fields, rfl⟩ := hobj
  have hgf : goodFields fields = true := h
  have hpt : pathsOf (Json.obj fields) = pathsFields fields := rfl
  set F := flattenJson (Json.obj fields) [] with hF
  set L := (sortBy unflattenLe F).map fun p => (splitOnChar '.' p.1, p.2) with hL
  have hFmap : F = (pathsOf (Json.obj fields)).map fun q => (joinSep '.' q.1, q.2) :=
    flattenJson_eq_paths _ h
  have hLperm : L.Perm (pathsOf (Json.obj fields)) := by
    have h1 : (sortBy unflattenLe F).Perm F := sortBy_perm unflattenLe F
    have h2 : L.Perm (F.map fun p => (splitOnChar '.' p.1, p.2)) := h1.map _
    have h3 : (F.map fun p => (splitOnChar '.' p.1, p.2)) = pathsOf (Json.obj fields) := by
      rw [hFmap, List.map_map]
      have : ∀ q ∈ pathsOf (Json.obj fields),
          ((fun p : JStr × Json => (splitOnChar '.' p.1, p.2)) ∘
            fun q : List JStr × Json => (joinSep '.' q.1, q.2)) q = id q := by
        intro q hq
        have hnn : q.1 ≠ [] := pathsFields_path_ne_nil fields q (hpt ▸ hq)
        have hseg := pathsFields_segments fields hgf q (hpt ▸ hq)
        have hfree : ∀ s ∈ q.1, '.' ∉ s := by
          intro s hs hdotmem
          have := (hseg s hs).2
          rw [← List.elem_iff] at hdotmem
          rw [List.contains] at this
          rw [this] at hdotmem
          cases hdotmem
        simp [Function.comp, splitOnChar_joinSep '.' q.1 hnn hfree]
      rw [List.map_congr_left this, List.map_id]
    rw [h3] at h2
    exact h2
  have helem : ∀ q ∈ L, q.1 ≠ [] ∧ isObj q.2 = false := by
    intro q hq
    have hq' : q ∈ pathsOf (Json.obj fields) := hLperm.mem_iff.mp hq
    exact ⟨pathsFields_path_ne_nil fields q (hpt ▸ hq'),
      pathsFields_values_nonobj fields q (hpt ▸ hq')⟩
  have hpw : List.Pairwise PathsApart (L ++ pathsOf (Json.obj [])) := by
    have h0 : pathsOf (Json.obj []) = [] := rfl
    rw [h0, List.append_nil]
    exact (List.Perm.pairwise_iff (fun hh => pathsApart_symm hh) hLperm).mpr
      (pathsFields_pairwise fields hgf)
  obtain ⟨u, hins, haccu, hperm⟩ := insertAll_insert L (Json.obj []) rfl helem hpw
  refine ⟨u, ?_, ?_⟩
  · rw [unflattenJson_eq_insertAll, ← hL, hins]
  · have hperm2 : (pathsOf u).Perm (pathsOf (Json.obj fields)) := by
      refine hperm.trans ?_
      have h0 : pathsOf (Json.obj []) = [] := rfl
      rw [h0, List.append_nil]
      exact hLperm
    refine paths_inj (sizeOf u) u (Json.obj fields) (Nat.le_refl _) haccu
      (by rw [accTree]; exact goodFields_accFields fields hgf) ?_ hperm2
    intro q hq
    exact pathsFields_values_leafOk fields hgf q
      (hpt ▸ hperm2.mem_iff.mp hq)

/-- C1 counterexample: the round-trip law fails for a tree whose (single,
scalar) leaf sits under a key that itself contains a dot.  `{"a.b": 1}`
flattens to `[("a.b", 1)]`, which unflattens to the nested `{"a": {"b": 1}}`,
not structurally equal to the original tree. -/
theorem C1_roundtrip_counterexample :
    unflattenJson (flattenJson (Json.obj [(js "a.b", Json.num 1)]) []) =
      some (Json.obj [(js "a", Json.obj [(js "b", Json.num 1)])]) ∧
    jeqv (Json.obj [(js "a", Json.obj [(js "b", Json.num 1)])])
      (Json.obj [(js "a.b", Json.num 1)]) = false :=
  ⟨rfl, rfl⟩

/-- C1 (amended): for every nested tree whose leaves are scalars or arrays of
scalars, whose object keys are non-empty, dot-free and distinct within each
object, and whose nested objects are non-empty,
`unflattenJson (flattenJson tree)` succeeds and returns a tree structurally
equal to `tree` (structural equality `jeqv` ignores object key order; object
identity is not required). -/
theorem C1_unflatten_flatten_roundTrip (t : Json) (h : goodTree t = true) :
    ∃ u, unflattenJson (flattenJson t []) = some u ∧ jeqv u t = true :=
  goodTree_roundTrip t h

/-- C1 witness: the round-trip theorem applied to the concrete two-level tree
`{"common": {"save": "Save", "cancel": "Cancel"}, "title": "Home"}`. -/
theorem C1_unflatten_flatten_roundTrip_witness :
    goodTree (Json.obj [(js "common", Json.obj [(js "save", Json.str (js "Save")),
        (js "cancel", Json.str (js "Cancel"))]), (js "title", Json.str (js "Home"))]) = true ∧
    ∃ u, unflattenJson (flattenJson (Json.obj [(js "common",
        Json.obj [(js "save", Json.str (js "Save")),
          (js "cancel", Json.str (js "Cancel"))]), (js "title", Json.str (js "Home"))]) []) =
        some u ∧
      jeqv u (Json.obj [(js "common", Json.obj [(js "save", Json.str (js "Save")),
        (js "cancel", Json.str (js "Cancel"))]), (js "title", Json.str (js "Home"))]) = true :=
  ⟨rfl, C1_unflatten_flatten_roundTrip _ rfl⟩

/-!
## Non-breaking-space typography (`src/utils/non-breaking-spaces.js`)

The four `String.prototype.replace(regex, …)` passes are modelled as
left-to-right scanners over the character list: at each position the regex's
match attempt at that position is tried (including JS's ordered alternation
and the one-step backtracking of a greedy `+` against a negative lookahead);
on a match the replacement is emitted and scanning resumes after the match,
as `replace` with the `g` flag does.  `\b` uses JS's ASCII word-character
class, `\s` the JS whitespace class, and the `i` flag is modelled by a case
fold covering ASCII plus the accented letters occurring in the rule tables.
-/

/-- One language's entry of `NON_BREAKING_SPACE_RULES`. -/
structure LanguageRules where
  singleLetterWords : List JStr
  shortWords : List JStr
  beforePunctuation : Option (List Char) := none
  numberUnits : Bool

/-- The `NON_BREAKING_SPACE_RULES` table, transcribed from the source
(duplicate entries such as the repeated `'ty'` and `'el'` are kept). -/
def NON_BREAKING_SPACE_RULES : List (JStr × LanguageRules) := [
  (js "pl", { singleLetterWords := [js "a", js "i", js "o", js "u", js "w", js "z"],
              shortWords := [js "na", js "po", js "do", js "od", js "za", js "ze", js "we",
                js "wi", js "wo", js "ku", js "by", js "ta", js "te", js "to", js "ty",
                js "co", js "że", js "ja", js "ty", js "on", js "my", js "wy", js "or",
                js "bo", js "no", js "ah", js "oj", js "eh", js "mu", js "go", js "ją",
                js "je", js "ję", js "mi", js "ci", js "si", js "ma", js "są"],
              numberUnits := true }),
  (js "cs", { singleLetterWords := [js "a", js "i", js "o", js "u", js "v", js "z",
                js "k", js "s"],
              shortWords := [js "na", js "po", js "do", js "od", js "za", js "ze", js "ve",
                js "ku", js "by", js "ta", js "te", js "to", js "ty", js "co", js "že",
                js "ja", js "ty", js "on", js "my", js "vy", js "bo", js "no", js "se",
                js "si", js "je", js "ho", js "mu", js "mi"],
              numberUnits := true }),
  (js "sk", { singleLetterWords := [js "a", js "i", js "o", js "u", js "v", js "z",
                js "k", js "s"],
              shortWords := [js "na", js "po", js "do", js "od", js "za", js "zo", js "ve",
                js "ku", js "by", js "ta", js "te", js "to", js "ty", js "čo", js "že",
                js "ja", js "ty", js "on", js "my", js "vy", js "bo", js "no", js "sa",
                js "si", js "je", js "ho", js "mu", js "mi"],
              numberUnits := true }),
  (js "fr", { singleLetterWords := [js "a", js "à", js "y"],
              shortWords := [js "le", js "la", js "de", js "du", js "et", js "ou", js "ce",
                js "se", js "ne", js "me", js "te", js "je", js "tu", js "il", js "un",
                js "au", js "si", js "en", js "on"],
              beforePunctuation := some [':', ';', '!', '?', '»'],
              numberUnits := true }),
  (js "de", { singleLetterWords := [],
              shortWords := [js "am", js "an", js "im", js "in", js "um", js "zu", js "ob",
                js "wo", js "so", js "da", js "es", js "er", js "du", js "zu"],
              numberUnits := true }),
  (js "hu", { singleLetterWords := [js "a", js "é", js "s"],
              shortWords := [js "az", js "el", js "le", js "be", js "ki", js "fel", js "meg",
                js "el", js "át", js "rá", js "el", js "oda"],
              numberUnits := true }),
  (js "es", { singleLetterWords := [js "a", js "e", js "o", js "u", js "y"],
              shortWords := [js "el", js "la", js "de", js "en", js "un", js "es", js "se",
                js "no", js "te", js "le", js "me", js "lo", js "al", js "mi", js "tu",
                js "su", js "si", js "ya", js "da"],
              numberUnits := true }),
  (js "it", { singleLetterWords := [js "a", js "e", js "è", js "o"],
              shortWords := [js "il", js "la", js "di", js "in", js "un", js "è", js "si",
                js "no", js "te", js "le", js "me", js "lo", js "al", js "mi", js "tu",
                js "su", js "se", js "da", js "ma", js "ha"],
              numberUnits := true }),
  (js "nl", { singleLetterWords := [js "a"],
              shortWords := [js "de", js "in", js "en", js "op", js "te", js "is", js "ze",
                js "me", js "je", js "we", js "ze", js "al", js "om", js "nu", js "zo",
                js "er"],
              numberUnits := true })]

/-- `COMMON_UNITS`, transcribed from the source in order (order matters:
JS alternation is first-match). -/
def COMMON_UNITS : List JStr := [
  js "m", js "km", js "cm", js "mm", js "g", js "kg", js "l", js "ml", js "s",
  js "min", js "h",
  js "m²", js "m³", js "ha", js "l/min", js "km/h",
  js "zł", js "PLN", js "EUR", js "USD", js "CZK", js "HUF",
  js "%", js "‰",
  js "°C", js "°F", js "K",
  js "W", js "kW", js "MW", js "kWh", js "J", js "kJ",
  js "Hz", js "kHz", js "MHz", js "GHz",
  js "Pa", js "kPa", js "bar", js "atm",
  js "B", js "kB", js "MB", js "GB", js "TB", js "bit", js "bps", js "Mbps"]

/-- JS `\w` (ASCII word character; `\b` is a transition between word and
non-word). -/
def isWordChar (c : Char) : Bool :=
  ('a' ≤ c && c ≤ 'z') || ('A' ≤ c && c ≤ 'Z') || ('0' ≤ c && c ≤ '9') || c = '_'

/-- JS `\s` (the whitespace characters relevant to these texts; note that
`\s` matches the non-breaking space, which matters because pass 2 runs on
pass 1's output). -/
def isJsSpace (c : Char) : Bool :=
  c = ' ' || c = '\t' || c = '\n' || c = '\r' || c = '\x0b' || c = '\x0c' ||
    c = ' ' || c = '﻿'

/-- Case fold for the `i` flag: ASCII letters plus the accented letters that
occur in the rule tables. -/
def foldCase (c : Char) : Char :=
  if 'A' ≤ c && c ≤ 'Z' then Char.ofNat (c.toNat + 32)
  else match c with
    | 'Ż' => 'ż'
    | 'Ą' => 'ą'
    | 'Ę' => 'ę'
    | 'Ž' => 'ž'
    | 'Č' => 'č'
    | 'À' => 'à'
    | 'Á' => 'á'
    | 'É' => 'é'
    | 'È' => 'è'
    | c => c

/-- Case-insensitive "the pattern `w` matches at the start of `s`". -/
def matchesCI (w s : JStr) : Bool :=
  (s.take w.length).map foldCase = w.map foldCase

/-- Length of the maximal run of characters satisfying `p` (a greedy `+` or
`*` over a character class). -/
def countLeading (p : Char → Bool) : JStr → Nat
  | [] => 0
  | c :: cs => if p c then countLeading p cs + 1 else 0

/-- Is the optional character a word character (`none` = outside the string,
which counts as non-word for `\b`)? -/
def isWordOpt : Option Char → Bool
  | some c => isWordChar c
  | none => false

/-- `\b` holds at the current position (`prev` = preceding character). -/
def boundary (prev : Option Char) (s : JStr) : Bool :=
  match s with
  | [] => false
  | c :: _ => isWordOpt prev != isWordChar c

/-- Match attempt of `\b(w1|…|wn) +(?!#{1,6})` (flags `gi`) at one position:
ordered alternation over the words; a greedy run of plain spaces; the
negative lookahead `(?!#)`, against which the `+` backtracks one step.
Returns the replacement `$1 ` and the number of characters consumed. -/
def shortWordMatch (words : List JStr) (prev : Option Char) (s : JStr) :
    Option (JStr × Nat) :=
  if boundary prev s then
    words.findSome? fun w =>
      if matchesCI w s then
        let rest := s.drop w.length
        let k := countLeading (· = ' ') rest
        if k = 0 then none
        else if (rest.drop k).headD ' ' ≠ '#' then
          some (s.take w.length ++ [' '], w.length + k)
        else if 2 ≤ k then
          some (s.take w.length ++ [' '], w.length + (k - 1))
        else none
      else none
  else none

/-- The global left-to-right replace loop: try a match at each position; on a
match emit the replacement and continue after the matched text (carrying the
original matched text's last character as the new `\b` context), otherwise
copy one character.  `fuel` is an upper bound on the number of steps
(`length + 1` always suffices since every match consumes at least one
character). -/
def scanRewrite (tryMatch : Option Char → JStr → Option (JStr × Nat)) :
    Nat → Option Char → JStr → JStr
  | 0, _, s => s
  | _ + 1, _, [] => []
  | fuel + 1, prev, c :: cs =>
    match tryMatch prev (c :: cs) with
    | some (repl, n) =>
      if n = 0 then c :: scanRewrite tryMatch fuel (some c) cs
      else repl ++ scanRewrite tryMatch fuel ((c :: cs).take n).getLast? ((c :: cs).drop n)
    | none => c :: scanRewrite tryMatch fuel (some c) cs

/-- Pass 1: non-breaking spaces after single-letter/short words. -/
def applyShortWords (words : List JStr) (content : JStr) : JStr :=
  scanRewrite (shortWordMatch words) (content.length + 1) none content

/-- ASCII digit (`\d`). -/
def isDigit (c : Char) : Bool := '0' ≤ c && c ≤ '9'

/-- Match attempt of `(\d)\s+(u1|…|un)\b` (flag `g`): a digit, greedy
whitespace, ordered alternation over the units, `\b` after the unit.
Replacement is `$1 $2`. -/
def unitMatch (units : List JStr) (_prev : Option Char) (s : JStr) :
    Option (JStr × Nat) :=
  match s with
  | [] => none
  | c :: cs =>
    if isDigit c then
      let k := countLeading isJsSpace cs
      if k = 0 then none
      else
        let rest2 := cs.drop k
        units.findSome? fun u =>
          if u.isPrefixOf rest2 then
            if isWordChar (u.getLastD ' ') != isWordOpt ((rest2.drop u.length).head?) then
              some (c :: ' ' :: u, 1 + k + u.length)
            else none
          else none
    else none

/-- Pass 2: non-breaking spaces between numbers and units. -/
def applyNumberUnits (content : JStr) : JStr :=
  scanRewrite (unitMatch COMMON_UNITS) (content.length + 1) none content

/-- Match attempt of `\s+([:;!?»])` (flag `g`): greedy whitespace collapsed
into a single ` ` before the punctuation character. -/
def frPunctMatch (puncts : List Char) (_prev : Option Char) (s : JStr) :
    Option (JStr × Nat) :=
  let k := countLeading isJsSpace s
  if k = 0 then none
  else
    match (s.drop k).head? with
    | some p => if puncts.contains p then some ([' ', p], k + 1) else none
    | none => none

/-- Pass 3 (French only): non-breaking space before `:;!?»`. -/
def applyFrPunct (puncts : List Char) (content : JStr) : JStr :=
  scanRewrite (frPunctMatch puncts) (content.length + 1) none content

/-- Match attempt of `\s+([1-9])\s+` (flag `g`): replacement ` $1 `
(non-breaking space, the digit, one plain space); both whitespace runs are
consumed. -/
def slavicDigitMatch (_prev : Option Char) (s : JStr) : Option (JStr × Nat) :=
  let k1 := countLeading isJsSpace s
  if k1 = 0 then none
  else
    match (s.drop k1).head? with
    | some d =>
      if '1' ≤ d && d ≤ '9' then
        let k2 := countLeading isJsSpace (s.drop (k1 + 1))
        if k2 = 0 then none
        else some ([' ', d, ' '], k1 + 1 + k2)
      else none
    | none => none

/-- Pass 4 (`pl`/`cs`/`sk`): non-breaking space before free-standing single
digits. -/
def applySlavicDigits (content : JStr) : JStr :=
  scanRewrite slavicDigitMatch (content.length + 1) none content

/-- `insertNonBreakingSpaces(content, language)` from
`src/utils/non-breaking-spaces.js`: look up the language's rules (returning
the content unchanged when there are none), then run the four passes in
source order. -/
def insertNonBreakingSpaces (content : JStr) (language : JStr) : JStr :=
  match alGet NON_BREAKING_SPACE_RULES language with
  | none => content
  | some languageRules =>
    let allShortWords := languageRules.singleLetterWords ++ languageRules.shortWords
    let p1 := if allShortWords.length > 0 then applyShortWords allShortWords content
              else content
    let p2 := if languageRules.numberUnits then applyNumberUnits p1 else p1
    let p3 :=
      if language = js "fr" then
        match languageRules.beforePunctuation with
        | some puncts => applyFrPunct puncts p2
        | none => p2
      else p2
    if language = js "pl" || language = js "cs" || language = js "sk" then
      applySlavicDigits p3
    else p3

/-- `getLanguageFromLocale(locale)`: `locale.split('-')[0]`. -/
def getLanguageFromLocale (locale : JStr) : JStr :=
  (splitOnChar '-' locale).headD []

/-- `hasNonBreakingSpaceRules(language)`: `language in NON_BREAKING_SPACE_RULES`. -/
def hasNonBreakingSpaceRules (language : JStr) : Bool :=
  (alGet NON_BREAKING_SPACE_RULES language).isSome

/-!
## The translation store (`TranslationManager` in `index.js`)

The filesystem is modelled as a write log plus a failure oracle on
filenames; a thrown exception is `Except.error`.  Result objects are
modelled structurally (the shapes the code builds), with error-message
strings dropped.
-/

/-- One key's record: `{ isChecked, translations: { locale: value } }`. -/
structure Entry where
  isChecked : Bool
  translations : List (JStr × Json)

/-- The manager's in-memory state (`this.translations`, `this.locales`). -/
structure TM where
  translations : List (JStr × Entry)
  locales : List JStr

/-- A file write performed by the manager. -/
inductive WriteEvent where
  | backup (locale : JStr)
  | localeDoc (locale : JStr) (doc : Json)
  | statusDoc (checked : List (JStr × Bool))
  | snapshotDoc (snap : List (JStr × List (JStr × Json)))

/-- Which filenames' `writeFile` throws (disk full, permission denied, …). -/
abbrev FailOracle := JStr → Bool

/-- The all-writes-succeed oracle. -/
def noFail : FailOracle := fun _ => false

def localeFilename (l : JStr) : JStr := l ++ js ".json"

def statusFilename : JStr := js "translation-check.json"

def snapshotFilename : JStr := js ".translation-state.json"

/-- Update the value at the first binding of `k`, if present. -/
def alModify (l : List (JStr × α)) (k : JStr) (f : α → α) : List (JStr × α) :=
  match l with
  | [] => []
  | (k', v) :: rest => if k' = k then (k', f v) :: rest else (k', v) :: alModify rest k f

/-- Typography at save time for one stored value: strings are transformed;
for a non-string value, `content.replace` in JS throws a `TypeError` when
the language has rules (with no rules the early return passes any value
through unchanged). -/
def applyNBSPValue (v : Json) (language : JStr) : Except JStr Json :=
  match v with
  | .str s => .ok (.str (insertNonBreakingSpaces s language))
  | v => if hasNonBreakingSpaceRules language then .error (js "TypeError") else .ok v

/-- The flat `[key, processedTranslation]` list built for one locale by
`saveTranslationsToJsonForLocales`: entries holding a value for this locale,
in catalog order. -/
def localeFlatData (entries : List (JStr × Entry)) (locale : JStr) :
    Except JStr (List (JStr × Json)) :=
  match entries with
  | [] => .ok []
  | (k, e) :: rest =>
    match alGet e.translations locale with
    | none => localeFlatData rest locale
    | some v =>
      match applyNBSPValue v (getLanguageFromLocale locale) with
      | .error m => .error m
      | .ok pv => (localeFlatData rest locale).map fun tl => (k, pv) :: tl

/-- One locale's body of the save loop (after the `locales.includes` guard):
build the flat data (may throw), unflatten it (may throw), back up the
existing file (`copyFile` failures are swallowed by the source), then write
the document (may throw per the oracle). -/
def saveOneLocale (tm : TM) (locale : JStr) (fail : FailOracle) :
    List WriteEvent × Except JStr Unit :=
  match localeFlatData tm.translations locale with
  | .error m => ([], .error m)
  | .ok flatData =>
    match unflattenJson flatData with
    | none => ([], .error (js "TypeError"))
    | some doc =>
      if fail (localeFilename locale) then ([.backup locale], .error (js "write failed"))
      else ([.backup locale, .localeDoc locale doc], .ok ())

/-- The status-file content: every key's `isChecked` flag. -/
def checkedData (tm : TM) : List (JStr × Bool) :=
  tm.translations.map fun p => (p.1, p.2.isChecked)

/-- `saveCheckedStatus()`. -/
def saveCheckedStatus (tm : TM) (fail : FailOracle) :
    List WriteEvent × Except JStr Unit :=
  if fail statusFilename then ([], .error (js "write failed"))
  else ([.statusDoc (checkedData tm)], .ok ())

/-- `saveTranslationsToJsonForLocales`'s result object (paired with
`success: true`; a throw is `Except.error`). -/
structure SaveResult where
  savedLocales : List JStr
  keyCount : Nat

/-- The `for (const locale of localesToSave)` loop: unknown locales are
skipped; the first throw aborts the loop (keeping the writes made so far). -/
def saveLocalesLoop (tm : TM) (fail : FailOracle) :
    List JStr → List WriteEvent × Except JStr Unit
  | [] => ([], .ok ())
  | locale :: rest =>
    if locale ∈ tm.locales then
      match saveOneLocale tm locale fail with
      | (evs, .error m) => (evs, .error m)
      | (evs, .ok ()) =>
        match saveLocalesLoop tm fail rest with
        | (evs2, r) => (evs ++ evs2, r)
    else saveLocalesLoop tm fail rest

/-- `saveTranslationsToJsonForLocales(localesToSave)`: write each requested
known locale's document, then the status document. -/
def saveTranslationsToJsonForLocales (tm : TM) (localesToSave : List JStr)
    (fail : FailOracle) : List WriteEvent × Except JStr SaveResult :=
  match saveLocalesLoop tm fail localesToSave with
  | (evs, .error m) => (evs, .error m)
  | (evs, .ok ()) =>
    match saveCheckedStatus tm fail with
    | (evs2, .error m) => (evs ++ evs2, .error m)
    | (evs2, .ok ()) =>
      (evs ++ evs2, .ok { savedLocales := localesToSave ++ [js "translation-check"],
                          keyCount := tm.translations.length })

/-- `saveTranslationsToJson()`: the full-catalog save. -/
def saveTranslationsToJson (tm : TM) (fail : FailOracle) :
    List WriteEvent × Except JStr SaveResult :=
  saveTranslationsToJsonForLocales tm tm.locales fail

/-- The state, write log and caller-visible result of one operation. -/
structure OpOut (ρ : Type) where
  tm : TM
  writes : List WriteEvent
  res : ρ

/-- Per-locale outcome inside `updateTranslations`' results (the
`{ error: 'Locale … not found' }` / `{ success: true, … }` objects; message
strings dropped). -/
inductive LocResult where
  | err : LocResult
  | ok (translation originalTranslation : JStr)
      (nonBreakingSpacesApplied : Bool) : LocResult
deriving DecidableEq

/-- Per-key outcome inside `updateTranslations`' results. -/
inductive KeyResult where
  | err : KeyResult
  | locs (rs : List (JStr × LocResult)) : KeyResult
deriving DecidableEq

/-- The inner `for (const [locale, translation] of …)` loop of
`updateTranslations`, mutating one entry. -/
def updateEntryLocales (e : Entry) (locales : List JStr)
    (pairs : List (JStr × JStr)) : Entry × List (JStr × LocResult) :=
  match pairs with
  | [] => (e, [])
  | (locale, translation) :: rest =>
    if locale ∈ locales then
      let processed := insertNonBreakingSpaces translation (getLanguageFromLocale locale)
      let e1 : Entry := { e with translations := alSet e.translations locale (.str processed) }
      let (e2, rs) := updateEntryLocales e1 locales rest
      (e2, (locale, .ok processed translation (decide (translation ≠ processed))) :: rs)
    else
      let (e2, rs) := updateEntryLocales e locales rest
      (e2, (locale, .err) :: rs)

/-- The outer loop of `updateTranslations`: unknown keys produce a per-key
error result and are skipped. -/
def applyUpdates (tm : TM) (updates : List (JStr × List (JStr × JStr))) :
    TM × List (JStr × KeyResult) :=
  match updates with
  | [] => (tm, [])
  | (key, localeTranslations) :: rest =>
    match alGet tm.translations key with
    | none =>
      let (tm', rs) := applyUpdates tm rest
      (tm', (key, .err) :: rs)
    | some entry =>
      let (e1, locRes) := updateEntryLocales entry tm.locales localeTranslations
      let tm1 : TM := { tm with translations := alSet tm.translations key e1 }
      let (tm', rs) := applyUpdates tm1 rest
      (tm', (key, .locs locRes) :: rs)

/-- Did this per-locale result report success? -/
def locSuccess : LocResult → Bool
  | .ok _ _ _ => true
  | .err => false

/-- The `modifiedLocales` set (a JS `Set` iterates in insertion order). -/
def modifiedLocalesOf (results : List (JStr × KeyResult)) : List JStr :=
  results.foldl
    (fun acc kr =>
      match kr.2 with
      | .err => acc
      | .locs rs =>
        rs.foldl
          (fun acc2 lr =>
            if locSuccess lr.2 && decide (lr.1 ∉ acc2) then acc2 ++ [lr.1] else acc2)
          acc)
    []

/-- `updateTranslations(updates)`: apply the updates in memory, then
auto-save only the modified locales.  A save failure is caught and only
logged (`console.error`) — the caller still receives the per-key results. -/
def updateTranslations (tm : TM) (updates : List (JStr × List (JStr × JStr)))
    (fail : FailOracle) : OpOut (List (JStr × KeyResult)) :=
  let p := applyUpdates tm updates
  let modifiedLocales := modifiedLocalesOf p.2
  if modifiedLocales.length > 0 then
    { tm := p.1, writes := (saveTranslationsToJsonForLocales p.1 modifiedLocales fail).1,
      res := p.2 }
  else { tm := p.1, writes := [], res := p.2 }

/-- One element of `markChecked`'s results array. -/
inductive MarkResult where
  | err (key : JStr) : MarkResult
  | ok (key : JStr) : MarkResult

/-- The loop of `markChecked`: set `isChecked = true` on every known key. -/
def markCheckedApply (tm : TM) (keys : List JStr) : TM × List MarkResult :=
  match keys with
  | [] => (tm, [])
  | key :: rest =>
    match alGet tm.translations key with
    | none =>
      let p := markCheckedApply tm rest
      (p.1, .err key :: p.2)
    | some _ =>
      let tr1 := alModify tm.translations key (fun e => { e with isChecked := true })
      let tm1 : TM := { tm with translations := tr1 }
      let p := markCheckedApply tm1 rest
      (p.1, .ok key :: p.2)

/-- `markChecked(keys)` (the array form; a single string is wrapped into a
one-element array by the source): mutate, then `saveCheckedStatus` —
whose failure propagates to the caller as a thrown error. -/
def markChecked (tm : TM) (keys : List JStr) (fail : FailOracle) :
    OpOut (Except JStr (List MarkResult)) :=
  let p := markCheckedApply tm keys
  match saveCheckedStatus p.1 fail with
  | (evs, .ok ()) => { tm := p.1, writes := evs, res := .ok p.2 }
  | (evs, .error m) => { tm := p.1, writes := evs, res := .error m }

/-- Per-locale outcome inside `addTranslations`' results (always a success
object in the source). -/
inductive AddLocResult where
  | ok (translation originalTranslation : JStr)
      (nonBreakingSpacesApplied : Bool) : AddLocResult

/-- The inner locale loop of `addTranslations`: a new locale is pushed and
the locale list re-sorted (`this.locales.sort()`). -/
def addEntryLocales (e : Entry) (locales : List JStr)
    (pairs : List (JStr × JStr)) : Entry × List JStr × List (JStr × AddLocResult) :=
  match pairs with
  | [] => (e, locales, [])
  | (locale, translation) :: rest =>
    let locales1 := if locale ∈ locales then locales
                    else sortBy strLeB (locales ++ [locale])
    let processed := insertNonBreakingSpaces translation (getLanguageFromLocale locale)
    let e1 : Entry := { e with translations := alSet e.translations locale (.str processed) }
    let q := addEntryLocales e1 locales1 rest
    (q.1, q.2.1, (locale, .ok processed translation (decide (translation ≠ processed))) :: q.2.2)

/-- `addTranslations(newTranslations)`: create missing entries
(`isChecked = false`, appended at the end of the map), store the processed
texts, extend/re-sort the locale list.  No persistence happens here. -/
def addTranslations (tm : TM) (newTranslations : List (JStr × List (JStr × JStr))) :
    TM × List (JStr × List (JStr × AddLocResult)) :=
  match newTranslations with
  | [] => (tm, [])
  | (key, localeTranslations) :: rest =>
    let entry0 : Entry :=
      match alGet tm.translations key with
      | some e => e
      | none => { isChecked := false, translations := [] }
    let q := addEntryLocales entry0 tm.locales localeTranslations
    let tm1 : TM := { translations := alSet tm.translations key q.1, locales := q.2.1 }
    let p := addTranslations tm1 rest
    (p.1, (key, q.2.2) :: p.2)

/-- The `add_translations` tool call: the handler invokes `addTranslations`
and returns its results — neither performs any save. -/
def addTranslationsOp (tm : TM) (newTranslations : List (JStr × List (JStr × JStr))) :
    OpOut (List (JStr × List (JStr × AddLocResult))) :=
  let p := addTranslations tm newTranslations
  { tm := p.1, writes := [], res := p.2 }

/-- `deleteKeysByPrefix`'s result object. -/
structure DeleteResult where
  deletedKeys : List JStr
  deletedCount : Nat
  remainingKeysCount : Nat

/-- `deleteKeysByPrefix(prefix)` (the source's parameter is named `prefix`;
an empty/missing prefix is falsy and throws before any mutation): delete
every key starting with the prefix, then — only if something was deleted —
run the full-catalog save followed by a second `saveCheckedStatus`. -/
def deleteKeysByPrefix (tm : TM) (keyPrefix : JStr) (fail : FailOracle) :
    OpOut (Except JStr DeleteResult) :=
  if keyPrefix = [] then { tm := tm, writes := [], res := .error (js "Prefix is required") }
  else
    let keysToDelete := (tm.translations.map (·.1)).filter fun k => keyPrefix.isPrefixOf k
    let remaining := tm.translations.filter (fun p => !(keyPrefix.isPrefixOf p.1))
    let tm' : TM := { tm with translations := remaining }
    if keysToDelete.length > 0 then
      match saveTranslationsToJson tm' fail with
      | (evs, .error m) => { tm := tm', writes := evs, res := .error m }
      | (evs, .ok _) =>
        match saveCheckedStatus tm' fail with
        | (evs2, .error m) => { tm := tm', writes := evs ++ evs2, res := .error m }
        | (evs2, .ok ()) =>
          { tm := tm', writes := evs ++ evs2,
            res := .ok { deletedKeys := keysToDelete,
                         deletedCount := keysToDelete.length,
                         remainingKeysCount := tm'.translations.length } }
    else
      { tm := tm', writes := [],
        res := .ok { deletedKeys := keysToDelete, deletedCount := keysToDelete.length,
                     remainingKeysCount := tm'.translations.length } }

/-- One element of `getMissingTranslationKeys`' result. -/
structure MissingKey where
  key : JStr
  missingLocales : List JStr
  existingTranslations : List (JStr × Json)

/-- `!data.translations[locale] || data.translations[locale] === ''`
(the `=== ''` test is subsumed by falsiness). -/
def missingValue (e : Entry) (locale : JStr) : Bool :=
  match alGet e.translations locale with
  | none => true
  | some v => jsFalsy v

/-- `getMissingTranslationKeys()`: every key missing (or holding a falsy
value for) at least one known locale, in catalog order — the whole list,
no pagination. -/
def getMissingTranslationKeys (tm : TM) : List MissingKey :=
  tm.translations.filterMap fun p =>
    let missingLocales := tm.locales.filter fun l => missingValue p.2 l
    if missingLocales.isEmpty then none
    else some { key := p.1, missingLocales := missingLocales,
                existingTranslations := p.2.translations }

/-- `getTranslationByKeyPrefix(keyPrefix)`: every key starting with the
prefix, in catalog order, mapped to its full per-locale translations —
the whole result set, no pagination. -/
def getTranslationByKeyPrefix (tm : TM) (keyPrefix : JStr) :
    List (JStr × List (JStr × Json)) :=
  (tm.translations.filter fun p => keyPrefix.isPrefixOf p.1).map
    fun p => (p.1, p.2.translations)

/-- The snapshot file's content: key → locale → value
(`.translation-state.json`). -/
abbrev PrevState := List (JStr × List (JStr × Json))

/-- The reload diff test, i.e. the body of

```
if (previousState && previousState[key]) {
  if (previousState[key][locale] !== value) entry.isChecked = false;
} else if (previousState && !previousState[key]) entry.isChecked = false;
```

`!==` on two separately parsed JSON values is value comparison for
primitives; arrays/objects are compared by reference and are therefore
always different across parses (`scalarEq` returns `false` for them);
an absent locale gives `undefined !== value`, which is also a change. -/
def shouldUncheck (prev : Option PrevState) (key locale : JStr) (value : Json) : Bool :=
  match prev with
  | none => false
  | some ps =>
    match alGet ps key with
    | some m =>
      match alGet m locale with
      | some w => !scalarEq w value
      | none => true
    | none => true

/-- Ingest one flat `(key, value)` pair for `locale` during a load: create
the entry if needed (`isChecked = false`, appended at the end), store the
value, and apply the snapshot diff test. -/
def loadPair (prev : Option PrevState) (locale : JStr)
    (entries : List (JStr × Entry)) (kv : JStr × Json) : List (JStr × Entry) :=
  let entries1 :=
    match alGet entries kv.1 with
    | some _ => entries
    | none => entries ++ [(kv.1, { isChecked := false, translations := [] })]
  alModify entries1 kv.1 fun e =>
    { isChecked := if shouldUncheck prev kv.1 locale kv.2 then false else e.isChecked,
      translations := alSet e.translations locale kv.2 }

/-- The locale-file recognition test of the load loops:
`filename.endsWith('.json') && !filename.endsWith('.bak') &&
filename !== 'translation-check.json'`. -/
def localeFileFilter (f : JStr) : Bool :=
  (js ".json").isSuffixOf f && !((js ".bak").isSuffixOf f) && f ≠ statusFilename

/-- `filename.replace('.json', '')` — deletes the *first* occurrence. -/
def localeOfFilename (f : JStr) : JStr := deleteFirstOcc (js ".json") f

/-- Ingest one parsed locale document. -/
def loadLocaleDoc (prev : Option PrevState) (locale : JStr)
    (entries : List (JStr × Entry)) (data : Json) : List (JStr × Entry) :=
  (flattenJson data []).foldl (loadPair prev locale) entries

/-- `loadTranslationsFromJson()`: `files` is the directory listing (in
directory order), `read f` the parse result of file `f` (`none` = read or
parse error, which the source catches per file and skips).  The first pass
collects the locale list from the filenames; the second pass merges each
readable document into the (not cleared) entry map; finally
`saveCurrentState()` writes the snapshot (its failure is caught and
ignored). -/
def loadTranslationsFromJson (tm : TM) (files : List JStr)
    (read : JStr → Option Json) (prev : Option PrevState) (fail : FailOracle) :
    TM × List WriteEvent :=
  let localeFiles := files.filter localeFileFilter
  let locales := localeFiles.map localeOfFilename
  let entries := localeFiles.foldl
    (fun acc f =>
      match read f with
      | none => acc
      | some data => loadLocaleDoc prev (localeOfFilename f) acc data)
    tm.translations
  let tm' : TM := { translations := entries, locales := locales }
  let evs := if fail snapshotFilename then []
             else [WriteEvent.snapshotDoc (entries.map fun p => (p.1, p.2.translations))]
  (tm', evs)

/-! ## Properties of the operations -/

/-- The entry after storing value `v` for locale `l`. -/
def entryWith (e : Entry) (l : JStr) (v : Json) : Entry :=
  { e with translations := alSet e.translations l v }

/-- The catalog after replacing key `k`'s entry by `e`. -/
def tmWith (tm : TM) (k : JStr) (e : Entry) : TM :=
  { tm with translations := alSet tm.translations k e }

theorem update_single_spec (tm : TM) (k l text : JStr) (fail : FailOracle) (e : Entry)
    (hk : alGet tm.translations k = some e) (hl : l ∈ tm.locales) :
    updateTranslations tm [(k, [(l, text)])] fail =
      OpOut.mk
        (tmWith tm k (entryWith e l
          (.str (insertNonBreakingSpaces text (getLanguageFromLocale l)))))
        (saveTranslationsToJsonForLocales
          (tmWith tm k (entryWith e l
            (.str (insertNonBreakingSpaces text (getLanguageFromLocale l)))))
          [l] fail).1
        [(k, .locs [(l, .ok (insertNonBreakingSpaces text (getLanguageFromLocale l))
          text (decide (text ≠ insertNonBreakingSpaces text (getLanguageFromLocale l))))])] := by
  simp [updateTranslations, applyUpdates, hk, updateEntryLocales, hl,
    modifiedLocalesOf, locSuccess, tmWith, entryWith]

/-- A two-locale demo catalog (the test suite's setup). -/
def tmDemo : TM :=
  { translations := [(js "common.save",
      { isChecked := false,
        translations := [(js "en-us", Json.str (js "Save")),
                         (js "pl-pl", Json.str (js "Zapisz"))] })],
    locales := [js "en-us", js "pl-pl"] }

/-- C7: calling `deleteKeysByPrefix` with an empty/missing prefix throws
`'Prefix is required'` before doing anything: the catalog is returned
unchanged, no write happens, and the error is the caller-visible result. -/
theorem C7_delete_requires_prefix (tm : TM) (fail : FailOracle) :
    deleteKeysByPrefix tm [] fail =
      OpOut.mk tm [] (.error (js "Prefix is required")) := rfl

/-- C3 (code bug): `addTranslations` — and the `add_translations` tool
handler around it — never persists anything.  On the repository's own test
scenario (adding `test.new.key` for both known locales of `tmDemo`) the
write log is empty even though the catalog has locales whose documents the
claim requires to be saved; the entry is still created in memory.  The
embedded v2 manager in `test-translation-manager.js` and the CHANGELOG's
"Now automatically saves" document the full-catalog save; `src/index.js`
lacks it. -/
theorem C3_add_never_persists :
    (addTranslationsOp tmDemo
        [(js "test.new.key",
          [(js "en-us", js "New Key"), (js "pl-pl", js "Nowy klucz")])]).writes = [] ∧
    (alGet (addTranslationsOp tmDemo
        [(js "test.new.key",
          [(js "en-us", js "New Key"), (js "pl-pl", js "Nowy klucz")])]).tm.translations
        (js "test.new.key")).isSome = true ∧
    tmDemo.locales ≠ [] :=
  ⟨rfl, by decide, by decide⟩

/-- Pagination as the spec words it (named `spec…` because it follows the
spec's text — the source has no pagination code to translate): the slice
`[(page-1)*pageSize, (page-1)*pageSize + pageSize)` of the matches. -/
def specPaginate {α : Type} (xs : List α) (page pageSize : Nat) : List α :=
  (xs.drop ((page - 1) * pageSize)).take pageSize

/-- A catalog with three `common.button.*` keys, two of them missing their
`pl-pl` value. -/
def tmPag : TM :=
  { translations :=
      [(js "common.button.save",
        { isChecked := false,
          translations := [(js "en-us", Json.str (js "Save"))] }),
       (js "common.button.cancel",
        { isChecked := false,
          translations := [(js "en-us", Json.str (js "Cancel")),
                           (js "pl-pl", Json.str (js "Anuluj"))] }),
       (js "common.button.submit",
        { isChecked := false,
          translations := [(js "en-us", Json.str (js "Submit"))] })],
    locales := [js "en-us", js "pl-pl"] }

/-- C4 (code bug): neither query paginates.  `getTranslationByKeyPrefix`
takes no `page`/`pageSize` arguments and returns every match: on `tmPag`
it returns all three `common.button.*` keys, not the two-element first
page the claim requires for `pageSize = 2`; likewise
`getMissingTranslationKeys` returns both incomplete keys, not the
one-element first page for `pageSize = 1` — and neither result carries a
`totalPages` field.  The pagination contract is implemented only by the
embedded v2 manager in `test-translation-manager.js`. -/
theorem C4_queries_not_paginated :
    (getTranslationByKeyPrefix tmPag (js "common.button")).length = 3 ∧
    getTranslationByKeyPrefix tmPag (js "common.button") ≠
      specPaginate (getTranslationByKeyPrefix tmPag (js "common.button")) 1 2 ∧
    (getMissingTranslationKeys tmPag).length = 2 ∧
    getMissingTranslationKeys tmPag ≠
      specPaginate (getMissingTranslationKeys tmPag) 1 1 := by
  refine ⟨rfl, ?_, rfl, ?_⟩ <;> intro h <;>
    exact absurd (congrArg List.length h) (by decide)

/-- A catalog whose single key holds values for both locales. -/
def tmDel : TM :=
  { translations := [(js "test.locale.specific",
      { isChecked := false,
        translations := [(js "en-us", Json.str (js "English")),
                         (js "pl-pl", Json.str (js "Polski"))] })],
    locales := [js "en-us", js "pl-pl"] }

/-- C5 (code bug): `deleteKeysByPrefix` accepts no `locales` argument, so
the per-locale contract cannot hold: deleting `test.locale` on `tmDel`
removes the entire entry — the value of **every** locale, not only a named
one — and then persists the documents of **all** known locales (plus the
status document twice), not only the locales that had a removal.  The
per-locale deletion is implemented only by the embedded v2 manager in
`test-translation-manager.js`. -/
theorem C5_delete_ignores_locales :
    (deleteKeysByPrefix tmDel (js "test.locale") noFail).tm.translations = [] ∧
    (deleteKeysByPrefix tmDel (js "test.locale") noFail).writes =
      [.backup (js "en-us"), .localeDoc (js "en-us") (Json.obj []),
       .backup (js "pl-pl"), .localeDoc (js "pl-pl") (Json.obj []),
       .statusDoc [], .statusDoc []] ∧
    (deleteKeysByPrefix tmDel (js "test.locale") noFail).res =
      .ok { deletedKeys := [js "test.locale.specific"], deletedCount := 1,
            remainingKeysCount := 0 } :=
  ⟨rfl, rfl, rfl⟩

/-- C10: a language with no entry in `NON_BREAKING_SPACE_RULES` (such as
`en`) makes `insertNonBreakingSpaces` the identity on every input, and
consequently both `updateTranslations` and the per-locale processing of
`addTranslations` store the supplied text verbatim for every locale whose
language part (before the first hyphen) has no rules. -/
theorem C10_no_rules_verbatim (lang : JStr)
    (h : alGet NON_BREAKING_SPACE_RULES lang = none) :
    (∀ content, insertNonBreakingSpaces content lang = content) ∧
    (∀ (tm : TM) (k l text : JStr) (fail : FailOracle) (e : Entry),
      alGet tm.translations k = some e → l ∈ tm.locales →
      getLanguageFromLocale l = lang →
      alGet (updateTranslations tm [(k, [(l, text)])] fail).tm.translations k =
        some (entryWith e l (.str text))) ∧
    (∀ (e : Entry) (locales : List JStr) (locale text : JStr),
      getLanguageFromLocale locale = lang →
      (addEntryLocales e locales [(locale, text)]).1 =
        entryWith e locale (.str text)) := by
  have hid : ∀ content, insertNonBreakingSpaces content lang = content := by
    intro content
    simp [insertNonBreakingSpaces, h]
  refine ⟨hid, ?_, ?_⟩
  · intro tm k l text fail e hk hl hlang
    rw [update_single_spec tm k l text fail e hk hl]
    simp only [tmWith, hlang, hid]
    exact alGet_alSet_self _ _ _
  · intro e locales locale text hlang
    simp [addEntryLocales, hlang, hid, entryWith]

/-- Concrete instance: `en` has no rules, so text passes through verbatim
and an `en-us` update stores the raw string. -/
theorem C10_no_rules_verbatim_witness :
    insertNonBreakingSpaces (js "Hello world") (js "en") = js "Hello world" ∧
    alGet (updateTranslations tmDemo
        [(js "common.save", [(js "en-us", js "Saved!")])] noFail).tm.translations
      (js "common.save") =
      some (entryWith
        { isChecked := false,
          translations := [(js "en-us", Json.str (js "Save")),
                           (js "pl-pl", Json.str (js "Zapisz"))] }
        (js "en-us") (.str (js "Saved!"))) := by
  have h := C10_no_rules_verbatim (js "en") rfl
  exact ⟨h.1 _, h.2.1 tmDemo _ _ _ noFail _ rfl (by decide) rfl⟩

theorem save_single_locale_writes (tm : TM) (l : JStr) (hl : l ∈ tm.locales) :
    (saveTranslationsToJsonForLocales tm [l] noFail).1 = [] ∨
    ∃ doc, (saveTranslationsToJsonForLocales tm [l] noFail).1 =
      [.backup l, .localeDoc l doc, .statusDoc (checkedData tm)] := by
  rcases hfd : localeFlatData tm.translations l with m | flatData
  · left
    simp [saveTranslationsToJsonForLocales, saveLocalesLoop, hl, saveOneLocale, hfd]
  · rcases hun : unflattenJson flatData with _ | doc
    · left
      simp [saveTranslationsToJsonForLocales, saveLocalesLoop, hl, saveOneLocale, hfd, hun]
    · right
      refine ⟨doc, ?_⟩
      simp [saveTranslationsToJsonForLocales, saveLocalesLoop, hl, saveOneLocale, hfd, hun,
        saveCheckedStatus, noFail]

theorem save_single_locale_ok (tm : TM) (l : JStr) (hl : l ∈ tm.locales)
    (r : SaveResult) (hok : (saveTranslationsToJsonForLocales tm [l] noFail).2 = .ok r) :
    ∃ doc, (saveTranslationsToJsonForLocales tm [l] noFail).1 =
      [.backup l, .localeDoc l doc, .statusDoc (checkedData tm)] := by
  rcases hfd : localeFlatData tm.translations l with m | flatData
  · exfalso
    simp [saveTranslationsToJsonForLocales, saveLocalesLoop, hl, saveOneLocale, hfd] at hok
  · rcases hun : unflattenJson flatData with _ | doc
    · exfalso
      simp [saveTranslationsToJsonForLocales, saveLocalesLoop, hl, saveOneLocale, hfd, hun] at hok
    · refine ⟨doc, ?_⟩
      simp [saveTranslationsToJsonForLocales, saveLocalesLoop, hl, saveOneLocale, hfd, hun,
        saveCheckedStatus, noFail]

theorem tmWith_translations (tm : TM) (k : JStr) (e : Entry) :
    (tmWith tm k e).translations = alSet tm.translations k e := rfl

theorem tmWith_locales (tm : TM) (k : JStr) (e : Entry) :
    (tmWith tm k e).locales = tm.locales := rfl

theorem entryWith_isChecked (e : Entry) (l : JStr) (v : Json) :
    (entryWith e l v).isChecked = e.isChecked := rfl

/-- C2: a single-key, single-locale update of a known key and known locale
stores exactly the typography transform of the text in memory, leaves every
entry's `isChecked` flag unchanged, touches no other locale's document on
disk (every write is locale `l`'s backup, locale `l`'s document, or the
status document), and whenever the auto-save succeeds, locale `l`'s
document and the status document are both actually written. -/
theorem C2_update_single_locale (tm : TM) (k l text : JStr) (e : Entry)
    (hk : alGet tm.translations k = some e) (hl : l ∈ tm.locales) :
    alGet (updateTranslations tm [(k, [(l, text)])] noFail).tm.translations k =
      some (entryWith e l
        (.str (insertNonBreakingSpaces text (getLanguageFromLocale l)))) ∧
    (∀ k', (alGet (updateTranslations tm [(k, [(l, text)])] noFail).tm.translations
        k').map Entry.isChecked = (alGet tm.translations k').map Entry.isChecked) ∧
    (∀ ev ∈ (updateTranslations tm [(k, [(l, text)])] noFail).writes,
      ev = .backup l ∨ (∃ doc, ev = .localeDoc l doc) ∨ ∃ cd, ev = .statusDoc cd) ∧
    (∀ r, (saveTranslationsToJsonForLocales
        (updateTranslations tm [(k, [(l, text)])] noFail).tm [l] noFail).2 = .ok r →
      (∃ doc, WriteEvent.localeDoc l doc ∈
        (updateTranslations tm [(k, [(l, text)])] noFail).writes) ∧
      ∃ cd, WriteEvent.statusDoc cd ∈
        (updateTranslations tm [(k, [(l, text)])] noFail).writes) := by
  rw [update_single_spec tm k l text noFail e hk hl]
  dsimp only
  refine ⟨alGet_alSet_self _ _ _, ?_, ?_, ?_⟩
  · intro k'
    by_cases hkk : k' = k
    · subst hkk
      rw [tmWith_translations, alGet_alSet_self, hk]
      simp [entryWith_isChecked]
    · rw [tmWith_translations, alGet_alSet_ne _ _ _ _ hkk]
  · intro ev hev
    have hl1 : l ∈ (tmWith tm k (entryWith e l
        (.str (insertNonBreakingSpaces text (getLanguageFromLocale l))))).locales := by
      rw [tmWith_locales]; exact hl
    rcases save_single_locale_writes _ l hl1 with hw | ⟨doc, hw⟩
    · rw [hw] at hev
      exact absurd hev (List.not_mem_nil _)
    · rw [hw] at hev
      simp only [List.mem_cons, List.not_mem_nil, or_false] at hev
      rcases hev with h1 | h1 | h1
      · exact .inl h1
      · exact .inr (.inl ⟨doc, h1⟩)
      · exact .inr (.inr ⟨_, h1⟩)
  · intro r hok
    have hl1 : l ∈ (tmWith tm k (entryWith e l
        (.str (insertNonBreakingSpaces text (getLanguageFromLocale l))))).locales := by
      rw [tmWith_locales]; exact hl
    rcases save_single_locale_ok _ l hl1 r hok with ⟨doc, hw⟩
    rw [hw]
    refine ⟨⟨doc, by simp⟩, ⟨checkedData (tmWith tm k (entryWith e l
      (.str (insertNonBreakingSpaces text (getLanguageFromLocale l))))), by simp⟩⟩

/-- Concrete instance of the update contract on the demo catalog. -/
theorem C2_update_single_locale_witness :
    alGet (updateTranslations tmDemo
        [(js "common.save", [(js "pl-pl", js "Zapisz zmiany")])] noFail).tm.translations
      (js "common.save") =
      some (entryWith
        { isChecked := false,
          translations := [(js "en-us", Json.str (js "Save")),
                           (js "pl-pl", Json.str (js "Zapisz"))] }
        (js "pl-pl")
        (.str (insertNonBreakingSpaces (js "Zapisz zmiany")
          (getLanguageFromLocale (js "pl-pl"))))) :=
  (C2_update_single_locale tmDemo (js "common.save") (js "pl-pl") (js "Zapisz zmiany")
    { isChecked := false,
      translations := [(js "en-us", Json.str (js "Save")),
                       (js "pl-pl", Json.str (js "Zapisz"))] }
    rfl (by decide)).1

theorem alGet_alModify_self (l : List (JStr × α)) (k : JStr) (f : α → α) (v : α)
    (h : alGet l k = some v) : alGet (alModify l k f) k = some (f v) := by
  induction l with
  | nil => simp [alGet] at h
  | cons p rest ih =>
    obtain ⟨k', v'⟩ := p
    by_cases hk : k' = k
    · subst hk
      simp [alGet] at h
      simp [alModify, alGet, h]
    · simp [alGet, hk] at h
      simp [alModify, alGet, hk, ih h]

theorem alGet_alModify_ne (l : List (JStr × α)) (k k' : JStr) (f : α → α)
    (h : k' ≠ k) : alGet (alModify l k f) k' = alGet l k' := by
  induction l with
  | nil => simp [alModify]
  | cons p rest ih =>
    obtain ⟨k'', v⟩ := p
    by_cases hk : k'' = k
    · subst hk
      have h2 : ¬(k'' = k') := fun e => h e.symm
      simp [alModify, alGet, h2]
    · by_cases hk2 : k'' = k'
      · subst hk2
        simp [alModify, alGet, hk]
      · simp [alModify, alGet, hk, hk2, ih]

theorem alGet_append_left (l1 l2 : List (JStr × α)) (k : JStr) (v : α)
    (h : alGet l1 k = some v) : alGet (l1 ++ l2) k = some v := by
  induction l1 with
  | nil => simp [alGet] at h
  | cons p rest ih =>
    obtain ⟨k', v'⟩ := p
    by_cases hk : k' = k
    · subst hk
      simp [alGet] at h
      simp [alGet, h]
    · simp [alGet, hk] at h
      simp [alGet, hk, ih h]

theorem alGet_append_right_self (l : List (JStr × α)) (k : JStr) (b : α)
    (h : alGet l k = none) : alGet (l ++ [(k, b)]) k = some b := by
  induction l with
  | nil => simp [alGet]
  | cons p rest ih =>
    obtain ⟨k', v'⟩ := p
    by_cases hk : k' = k
    · subst hk
      simp [alGet] at h
    · simp [alGet, hk] at h
      simp [alGet, hk, ih h]

/-- Key `k` is present with `isChecked = false`. -/
def uncheckedAt (entries : List (JStr × Entry)) (k : JStr) : Prop :=
  ∃ e, alGet entries k = some e ∧ e.isChecked = false

theorem loadPair_unchecks (prev : Option PrevState) (locale : JStr)
    (entries : List (JStr × Entry)) (kv : JStr × Json)
    (h : shouldUncheck prev kv.1 locale kv.2 = true) :
    uncheckedAt (loadPair prev locale entries kv) kv.1 := by
  unfold loadPair
  rcases hg : alGet entries kv.1 with _ | e0
  · simp only [hg]
    exact ⟨_, alGet_alModify_self _ _ _ _ (alGet_append_right_self _ _ _ hg), by simp [h]⟩
  · simp only [hg]
    exact ⟨_, alGet_alModify_self _ _ _ _ hg, by simp [h]⟩

theorem loadPair_preserves (prev : Option PrevState) (locale : JStr)
    (entries : List (JStr × Entry)) (kv : JStr × Json) (k0 : JStr)
    (h : uncheckedAt entries k0) :
    uncheckedAt (loadPair prev locale entries kv) k0 := by
  obtain ⟨e0, hg0, hc⟩ := h
  unfold loadPair
  by_cases hk : kv.1 = k0
  · subst hk
    simp only [hg0]
    exact ⟨_, alGet_alModify_self _ _ _ _ hg0, by simp [hc]⟩
  · have hk' : k0 ≠ kv.1 := fun e => hk e.symm
    rcases hg : alGet entries kv.1 with _ | e1
    · simp only [hg]
      rw [uncheckedAt]
      rw [alGet_alModify_ne _ _ _ _ hk']
      exact ⟨e0, alGet_append_left _ _ _ _ hg0, hc⟩
    · simp only [hg]
      rw [uncheckedAt]
      rw [alGet_alModify_ne _ _ _ _ hk']
      exact ⟨e0, hg0, hc⟩

theorem loadPairs_preserve (prev : Option PrevState) (locale : JStr)
    (pairs : List (JStr × Json)) (entries : List (JStr × Entry)) (k0 : JStr)
    (h : uncheckedAt entries k0) :
    uncheckedAt (pairs.foldl (loadPair prev locale) entries) k0 := by
  induction pairs generalizing entries with
  | nil => exact h
  | cons p rest ih => exact ih _ (loadPair_preserves _ _ _ _ _ h)

theorem loadPairs_establish (prev : Option PrevState) (locale : JStr)
    (pairs : List (JStr × Json)) (entries : List (JStr × Entry)) (kv : JStr × Json)
    (hkv : kv ∈ pairs) (h : shouldUncheck prev kv.1 locale kv.2 = true) :
    uncheckedAt (pairs.foldl (loadPair prev locale) entries) kv.1 := by
  induction pairs generalizing entries with
  | nil => exact absurd hkv (List.not_mem_nil _)
  | cons p rest ih =>
    rw [List.foldl_cons]
    rcases List.mem_cons.mp hkv with he | hm
    · subst he
      exact loadPairs_preserve _ _ _ _ _ (loadPair_unchecks _ _ _ _ h)
    · exact ih _ hm

theorem loadDocs_preserve (prev : Option PrevState) (read : JStr → Option Json)
    (fs : List JStr) (entries : List (JStr × Entry)) (k0 : JStr)
    (h : uncheckedAt entries k0) :
    uncheckedAt (fs.foldl (fun acc f =>
      match read f with
      | none => acc
      | some data => loadLocaleDoc prev (localeOfFilename f) acc data) entries) k0 := by
  induction fs generalizing entries with
  | nil => exact h
  | cons f rest ih =>
    rw [List.foldl_cons]
    rcases hr : read f with _ | data
    · simp only [hr]
      exact ih _ h
    · simp only [hr]
      exact ih _ (loadPairs_preserve _ _ _ _ _ h)

/-- C6: on a reload, any flat `(key, value)` pair decoded from a readable
locale document whose snapshot diff test fires (snapshot exists and either
the key is absent from it or its value for this locale differs from the
loaded value) leaves the key's entry with `isChecked = false` in the final
catalog — later pairs can never set the flag back to `true`. -/
theorem C6_reload_unchecks (tm : TM) (files : List JStr)
    (read : JStr → Option Json) (prev : Option PrevState) (fail : FailOracle)
    (f : JStr) (hf : f ∈ files.filter localeFileFilter)
    (data : Json) (hread : read f = some data)
    (kv : JStr × Json) (hkv : kv ∈ flattenJson data [])
    (hdiff : shouldUncheck prev kv.1 (localeOfFilename f) kv.2 = true) :
    ∃ e, alGet (loadTranslationsFromJson tm files read prev fail).1.translations kv.1 =
      some e ∧ e.isChecked = false := by
  obtain ⟨l1, l2, hsplit⟩ := List.append_of_mem hf
  unfold loadTranslationsFromJson
  dsimp only
  rw [hsplit, List.foldl_append, List.foldl_cons]
  simp only [hread]
  exact loadDocs_preserve _ _ _ _ _
    (loadPairs_establish _ _ _ _ _ hkv hdiff)

/-- The reload-diff scenario: the snapshot recorded `{a: {en: "X"}}` and the
external edit changed `en.json` to `{a: "Y"}`. -/
def tmReload : TM :=
  { translations := [(js "a",
      { isChecked := true, translations := [(js "en", Json.str (js "X"))] })],
    locales := [js "en"] }

/-- The edited directory content for the reload-diff scenario. -/
def readReload : JStr → Option Json := fun f =>
  if f = js "en.json" then some (Json.obj [(js "a", Json.str (js "Y"))]) else none

/-- The snapshot content for the reload-diff scenario. -/
def prevReload : PrevState := [(js "a", [(js "en", Json.str (js "X"))])]

/-- The reload-diff scenario: entry `a` was checked, the snapshotted `en`
value was `"X"`, the file now says `"Y"` — after reload the entry is
unchecked. -/
theorem C6_reload_unchecks_witness :
    ∃ e, alGet (loadTranslationsFromJson tmReload [js "en.json"] readReload
        (some prevReload) noFail).1.translations (js "a") = some e ∧
      e.isChecked = false :=
  C6_reload_unchecks tmReload [js "en.json"] readReload (some prevReload) noFail
    (js "en.json") (by decide)
    (Json.obj [(js "a", Json.str (js "Y"))]) rfl
    (js "a", Json.str (js "Y")) (List.Mem.head _) rfl

/-- An oracle on which writing `en-us.json` fails. -/
def failEnUs : FailOracle := fun f => f = js "en-us.json"

/-- An oracle on which writing the status document fails. -/
def failStatus : FailOracle := fun f => f = statusFilename

/-- C8 counterexample: when writing `en-us.json` fails during the auto-save
of an update, the caller still receives exactly the same success-shaped
per-key results as when every write succeeds — no `{success: false}` shape
is produced — even though the write log shows the save aborted right after
the backup. -/
theorem C8_update_swallows_failure :
    (updateTranslations tmDemo
        [(js "common.save", [(js "en-us", js "Changed")])] failEnUs).res =
      (updateTranslations tmDemo
        [(js "common.save", [(js "en-us", js "Changed")])] noFail).res ∧
    (updateTranslations tmDemo
        [(js "common.save", [(js "en-us", js "Changed")])] failEnUs).res =
      [(js "common.save",
        .locs [(js "en-us", .ok (js "Changed") (js "Changed") false)])] ∧
    (updateTranslations tmDemo
        [(js "common.save", [(js "en-us", js "Changed")])] failEnUs).writes =
      [.backup (js "en-us")] :=
  ⟨rfl, rfl, rfl⟩

/-- The catalog `deleteKeysByPrefix` builds: the matching keys filtered out. -/
def tmAfterDelete (tm : TM) (kp : JStr) : TM :=
  { tm with translations := tm.translations.filter (fun p => !(kp.isPrefixOf p.1)) }

/-- C8 (amended): in-memory mutations are indeed never rolled back on a
persistence failure, but how the failure surfaces differs per operation:
`updateTranslations` swallows it entirely — its caller-visible results and
final state are identical to the all-writes-succeed run under **every**
failure oracle; `markChecked` keeps its mutation and propagates a
status-write failure to the caller as a thrown error; `deleteKeysByPrefix`
keeps its mutation (the filtered catalog) under every failure oracle and,
whenever something was deleted and the full-catalog save (or the second
status save) throws, propagates that error to the caller. -/
theorem C8_no_rollback_surfacing (tm : TM) (fail : FailOracle)
    (ups : List (JStr × List (JStr × JStr))) (keys : List JStr) (kp : JStr)
    (hkp : kp ≠ []) :
    ((updateTranslations tm ups fail).res = (updateTranslations tm ups noFail).res ∧
      (updateTranslations tm ups fail).tm = (updateTranslations tm ups noFail).tm) ∧
    ((markChecked tm keys fail).tm = (markCheckedApply tm keys).1 ∧
      (fail statusFilename = true →
        (markChecked tm keys fail).res = .error (js "write failed"))) ∧
    ((deleteKeysByPrefix tm kp fail).tm.translations =
      tm.translations.filter (fun p => !(kp.isPrefixOf p.1))) ∧
    (∀ m, ((tm.translations.map (·.1)).filter (fun k => kp.isPrefixOf k)).length > 0 →
      (saveTranslationsToJson (tmAfterDelete tm kp) fail).2 = .error m →
      (deleteKeysByPrefix tm kp fail).res = .error m) ∧
    (∀ r m, ((tm.translations.map (·.1)).filter (fun k => kp.isPrefixOf k)).length > 0 →
      (saveTranslationsToJson (tmAfterDelete tm kp) fail).2 = .ok r →
      (saveCheckedStatus (tmAfterDelete tm kp) fail).2 = .error m →
      (deleteKeysByPrefix tm kp fail).res = .error m) := by
  refine ⟨⟨?_, ?_⟩, ⟨?_, ?_⟩, ?_, ?_, ?_⟩
  · unfold updateTranslations
    dsimp only
    split <;> rfl
  · unfold updateTranslations
    dsimp only
    split <;> rfl
  · unfold markChecked
    dsimp only
    rcases h : saveCheckedStatus (markCheckedApply tm keys).1 fail with ⟨evs, r⟩
    rcases r with m | u
    · rfl
    · rfl
  · intro hf
    unfold markChecked saveCheckedStatus
    dsimp only
    rw [hf]
    rfl
  · unfold deleteKeysByPrefix
    rw [if_neg hkp]
    dsimp only
    split
    · rcases h : saveTranslationsToJson
        { tm with translations :=
            tm.translations.filter (fun p => !(kp.isPrefixOf p.1)) } fail with ⟨evs, r⟩
      rcases r with m | u
      · rfl
      · rcases h2 : saveCheckedStatus
          { tm with translations :=
              tm.translations.filter (fun p => !(kp.isPrefixOf p.1)) } fail with ⟨evs2, r2⟩
        rcases r2 with m2 | u2 <;> rfl
    · rfl
  · intro m hlen hsv
    unfold tmAfterDelete at hsv
    unfold deleteKeysByPrefix
    rw [if_neg hkp]
    dsimp only
    rw [if_pos hlen]
    rcases h : saveTranslationsToJson
      { tm with translations :=
          tm.translations.filter (fun p => !(kp.isPrefixOf p.1)) } fail with ⟨evs, r⟩
    rw [h] at hsv
    rcases r with m2 | u
    · dsimp only at hsv ⊢
      injection hsv with hm
      rw [hm]
    · simp at hsv
  · intro r m hlen hsv hst
    unfold tmAfterDelete at hsv hst
    unfold deleteKeysByPrefix
    rw [if_neg hkp]
    dsimp only
    rw [if_pos hlen]
    rcases h : saveTranslationsToJson
      { tm with translations :=
          tm.translations.filter (fun p => !(kp.isPrefixOf p.1)) } fail with ⟨evs, r1⟩
    rw [h] at hsv
    rcases r1 with m2 | u
    · simp at hsv
    · rcases h2 : saveCheckedStatus
        { tm with translations :=
            tm.translations.filter (fun p => !(kp.isPrefixOf p.1)) } fail with ⟨evs2, r2⟩
      rw [h2] at hst
      rcases r2 with m3 | u2
      · dsimp only at hst ⊢
        injection hst with hm
        rw [hm]
      · simp at hst

/-- Concrete instance: a failing status write makes `markChecked` surface
the thrown error, a delete's in-memory removal survives a failing oracle,
and a failing locale-document write during the delete's save surfaces as
the delete's error result. -/
theorem C8_no_rollback_surfacing_witness :
    (markChecked tmDemo [js "common.save"] failStatus).res =
      .error (js "write failed") ∧
    (deleteKeysByPrefix tmDemo (js "common") failStatus).tm.translations = [] ∧
    (deleteKeysByPrefix tmDemo (js "common") failEnUs).res =
      .error (js "write failed") :=
  ⟨(C8_no_rollback_surfacing tmDemo failStatus
      [(js "common.save", [(js "en-us", js "Zz")])] [js "common.save"] (js "common")
      (by decide)).2.1.2 (by decide),
   by
    rw [(C8_no_rollback_surfacing tmDemo failStatus
      [(js "common.save", [(js "en-us", js "Zz")])] [js "common.save"] (js "common")
      (by decide)).2.2.1]
    rfl,
   (C8_no_rollback_surfacing tmDemo failEnUs
      [(js "common.save", [(js "en-us", js "Zz")])] [js "common.save"] (js "common")
      (by decide)).2.2.2.1 (js "write failed") (by decide) rfl⟩

theorem strLtB_asymm (a b : JStr) (h : strLtB a b = true) : strLtB b a = false := by
  induction a generalizing b with
  | nil =>
    cases b with
    | nil => simp [strLtB] at h
    | cons c cs => simp [strLtB]
  | cons c cs ih =>
    cases b with
    | nil => simp [strLtB] at h
    | cons d ds =>
      by_cases hcd : c = d
      · subst hcd
        simp only [strLtB, if_pos rfl] at h ⊢
        exact ih ds h
      · have hdc : ¬(d = c) := fun e => hcd e.symm
        simp only [strLtB, if_neg hcd] at h
        simp only [strLtB, if_neg hdc]
        exact decide_eq_false (lt_asymm (of_decide_eq_true h))

theorem strLeB_total (a b : JStr) : (strLeB a b || strLeB b a) = true := by
  unfold strLeB
  rcases hba : strLtB b a with _ | _
  · simp
  · simp [strLtB_asymm b a hba]

/-- Is the list ordered under `le` (adjacent pairs)? -/
def chainLe (le : α → α → Bool) : List α → Bool
  | [] => true
  | [_] => true
  | a :: b :: rest => le a b && chainLe le (b :: rest)

theorem chainLe_cons2 (le : α → α → Bool) (a b : α) (t : List α) :
    chainLe le (a :: b :: t) = (le a b && chainLe le (b :: t)) := rfl

/-- Sorted ascending in code-point order. -/
def localesSorted : List JStr → Bool := chainLe strLeB

theorem chainLe_sortInsert (le : α → α → Bool)
    (htot : ∀ a b, (le a b || le b a) = true) (x : α) (l : List α)
    (h : chainLe le l = true) : chainLe le (sortInsert le x l) = true := by
  induction l with
  | nil => rfl
  | cons y ys ih =>
    simp only [sortInsert]
    by_cases hxy : le x y = true
    · rw [if_pos hxy, chainLe_cons2, hxy, h]
      rfl
    · rw [if_neg hxy]
      have hyx : le y x = true := by
        rcases Bool.or_eq_true_iff.mp (htot x y) with h1 | h1
        · exact absurd h1 hxy
        · exact h1
      cases ys with
      | nil =>
        simp [sortInsert, chainLe, hyx]
      | cons z zs =>
        rw [chainLe_cons2] at h
        rw [Bool.and_eq_true] at h
        have ih1 := ih h.2
        simp only [sortInsert] at ih1 ⊢
        by_cases hxz : le x z = true
        · rw [if_pos hxz] at ih1 ⊢
          rw [chainLe_cons2, hyx, ih1]
          rfl
        · rw [if_neg hxz] at ih1 ⊢
          rw [chainLe_cons2, h.1, ih1]
          rfl

theorem chainLe_sortBy (le : α → α → Bool)
    (htot : ∀ a b, (le a b || le b a) = true) (l : List α) :
    chainLe le (sortBy le l) = true := by
  induction l with
  | nil => rfl
  | cons x xs ih => exact chainLe_sortInsert le htot x _ ih

theorem addEntryLocales_locales (e : Entry) (locales orig : List JStr)
    (pairs : List (JStr × JStr))
    (h1 : locales = orig ∨ localesSorted locales = true) (h2 : locales.Nodup) :
    ((addEntryLocales e locales pairs).2.1 = orig ∨
      localesSorted (addEntryLocales e locales pairs).2.1 = true) ∧
    (addEntryLocales e locales pairs).2.1.Nodup := by
  induction pairs generalizing e locales with
  | nil => exact ⟨h1, h2⟩
  | cons p rest ih =>
    obtain ⟨locale, translation⟩ := p
    simp only [addEntryLocales]
    by_cases hm : locale ∈ locales
    · rw [if_pos hm]
      exact ih _ _ h1 h2
    · rw [if_neg hm]
      apply ih
      · exact Or.inr (chainLe_sortBy strLeB strLeB_total _)
      · have hcat : (locales ++ [locale]).Nodup := by
          have hperm2 : (locales ++ [locale]).Perm (locale :: locales) :=
            List.perm_append_comm
          exact hperm2.nodup_iff.mpr (List.nodup_cons.mpr ⟨hm, h2⟩)
        exact (sortBy_perm strLeB (locales ++ [locale])).nodup_iff.mpr hcat

theorem addTranslations_locales (tm : TM) (orig : List JStr)
    (adds : List (JStr × List (JStr × JStr)))
    (h1 : tm.locales = orig ∨ localesSorted tm.locales = true)
    (h2 : tm.locales.Nodup) :
    ((addTranslations tm adds).1.locales = orig ∨
      localesSorted (addTranslations tm adds).1.locales = true) ∧
    (addTranslations tm adds).1.locales.Nodup := by
  induction adds generalizing tm with
  | nil => exact ⟨h1, h2⟩
  | cons a rest ih =>
    obtain ⟨key, lts⟩ := a
    simp only [addTranslations]
    have hq := addEntryLocales_locales
      (match alGet tm.translations key with
       | some e => e
       | none => { isChecked := false, translations := [] })
      tm.locales orig lts h1 h2
    exact ih _ hq.1 hq.2

/-- The empty catalog. -/
def tmEmpty : TM := { translations := [], locales := [] }

/-- C9 counterexample: the load path performs no sorting and no
deduplication of the locale list.  Listing `pl.json` before `en.json`
yields the unsorted locale list `["pl", "en"]`; and because
`filename.replace('.json', '')` removes only the *first* occurrence, the
two distinct filenames `.jsonpl.json` and `pl.json.json` both map to the
locale `pl.json`, producing a duplicated list. -/
theorem C9_locales_counterexample :
    (loadTranslationsFromJson tmEmpty [js "pl.json", js "en.json"]
        (fun _ => none) none noFail).1.locales = [js "pl", js "en"] ∧
    localesSorted [js "pl", js "en"] = false ∧
    (loadTranslationsFromJson tmEmpty [js ".jsonpl.json", js "pl.json.json"]
        (fun _ => none) none noFail).1.locales = [js "pl.json", js "pl.json"] ∧
    ¬ ([js "pl.json", js "pl.json"] : List JStr).Nodup :=
  ⟨rfl, rfl, rfl, by decide⟩

/-- C9 (amended): the locale list after `loadTranslationsFromJson` is
exactly the filtered directory listing with `.json` stripped, in directory
order — neither sorted nor deduplicated; `addTranslations`, on the other
hand, does maintain the invariant: starting from a duplicate-free locale
list it returns either the unchanged list or a sorted one, and the result
is always duplicate-free. -/
theorem C9_locales_invariant (tm : TM) (h : tm.locales.Nodup)
    (adds : List (JStr × List (JStr × JStr))) (files : List JStr)
    (read : JStr → Option Json) (prev : Option PrevState) (fail : FailOracle) :
    (((addTranslations tm adds).1.locales = tm.locales ∨
        localesSorted (addTranslations tm adds).1.locales = true) ∧
      (addTranslations tm adds).1.locales.Nodup) ∧
    (loadTranslationsFromJson tm files read prev fail).1.locales =
      (files.filter localeFileFilter).map localeOfFilename :=
  ⟨addTranslations_locales tm tm.locales adds (Or.inl rfl) h, rfl⟩

/-- Concrete instance: adding a translation for the new locale `cs-cz` to
the demo catalog re-sorts the locale list and keeps it duplicate-free. -/
theorem C9_locales_invariant_witness :
    ((addTranslations tmDemo [(js "k", [(js "cs-cz", js "v")])]).1.locales =
        tmDemo.locales ∨
      localesSorted
        (addTranslations tmDemo [(js "k", [(js "cs-cz", js "v")])]).1.locales = true) ∧
    (addTranslations tmDemo [(js "k", [(js "cs-cz", js "v")])]).1.locales.Nodup :=
  (C9_locales_invariant tmDemo (by decide) [(js "k", [(js "cs-cz", js "v")])]
    [] (fun _ => none) none noFail).1
